import Mathlib

/-!
Verification of the niri background-effect core: region decomposition,
blur pyramid preparation and rendering preconditions, subregion damage
filtering, and the framebuffer-effect capture/draw protocol.

All definitions are shallow embeddings of the Rust sources:
- `src/utils/region.rs` (`region_to_non_overlapping_rects`),
- `src/render_helpers/blur.rs` (`Blur::prepare_textures`, `Blur::render`),
- `src/render_helpers/background_effect.rs` (`EffectSubregion`),
- `src/render_helpers/framebuffer_effect.rs`, `src/render_helpers/xray.rs`.

Machine integers (`i32`) are modelled as `Int` (no arithmetic here can
overflow at the sizes involved), `f64` coordinate arithmetic as `ℚ`, and
fallible operations as `Except`/`Option` with explicit success oracles for
the GPU calls.
-/

namespace Niri

/-- A rectangle with integer location and size, mirroring
`smithay::utils::Rectangle<i32, _>` (fields `loc.x`, `loc.y`, `size.w`,
`size.h`). -/
structure Recti where
  x : Int
  y : Int
  w : Int
  h : Int
  deriving DecidableEq, Repr

/-- `smithay::wayland::compositor::RectangleKind`. -/
inductive RectKind where
  | add
  | subtract
  deriving DecidableEq, Repr

/-- `RegionAttributes.rects`: the ordered (op, rectangle) list. -/
abbrev Region := List (RectKind × Recti)

/-- The integer point `(px, py)` lies inside rectangle `r` (half-open on
the right/bottom). A rectangle with non-positive width or height contains
no points. -/
def Recti.containsPt (r : Recti) (px py : Int) : Prop :=
  r.x ≤ px ∧ px < r.x + r.w ∧ r.y ≤ py ∧ py < r.y + r.h

instance (r : Recti) (px py : Int) : Decidable (r.containsPt px py) := by
  unfold Recti.containsPt; infer_instance

/-- Insertion into a sorted duplicate-free list of `Int`, modelling
`BTreeSet` insertion in `region_to_non_overlapping_rects`. -/
def insertY (x : Int) : List Int → List Int
  | [] => [x]
  | y :: ys =>
    if x < y then x :: y :: ys
    else if x = y then y :: ys
    else y :: insertY x ys

/-- The sorted set of all unique Y coordinates (`r.loc.y` and
`r.loc.y + r.size.h` for every rectangle), as collected into the
`BTreeSet` `ys` in `region_to_non_overlapping_rects`. -/
def yCoords (region : Region) : List Int :=
  region.foldl (fun acc p => insertY (p.2.y + p.2.h) (insertY p.2.y acc)) []

/-- The `RectangleKind::Add` branch of the span loop: iterate over the
existing spans backwards (`revPre` is the still-unscanned prefix in
reverse, `suffix` the already-scanned tail). A span strictly to the left
of the new one ends the scan with an insertion after it; a span strictly
to the right is kept and the scan moves left; an overlapping or touching
span is removed and merged into the new span. Falling off the left end
inserts the merged span at position 0. -/
def addSpanGo (x1 x2 : Int) : List (Int × Int) → List (Int × Int) → List (Int × Int)
  | [], suffix => (x1, x2) :: suffix
  | (s, e) :: revPre, suffix =>
    if e < x1 then
      ((s, e) :: revPre).reverse ++ (x1, x2) :: suffix
    else if x2 < s then
      addSpanGo x1 x2 revPre ((s, e) :: suffix)
    else
      addSpanGo (min x1 s) (max x2 e) revPre suffix

/-- Replay of one `Add` rectangle against the span list. -/
def addSpan (x1 x2 : Int) (spans : List (Int × Int)) : List (Int × Int) :=
  addSpanGo x1 x2 spans.reverse []

/-- The `RectangleKind::Subtract` branch of the span loop: scanning
backwards, a span ending at or before `x1` stops the whole scan; a span
starting at or after `x2` is kept; an overlapping span is removed and
replaced by its up-to-two surviving pieces. -/
def subSpanGo (x1 x2 : Int) : List (Int × Int) → List (Int × Int) → List (Int × Int)
  | [], suffix => suffix
  | (s, e) :: revPre, suffix =>
    if e ≤ x1 then
      ((s, e) :: revPre).reverse ++ suffix
    else if x2 ≤ s then
      subSpanGo x1 x2 revPre ((s, e) :: suffix)
    else
      subSpanGo x1 x2 revPre
        ((if s < x1 then [(s, x1)] else []) ++ (if x2 < e then [(x2, e)] else []) ++ suffix)

/-- Replay of one `Subtract` rectangle against the span list. -/
def subSpan (x1 x2 : Int) (spans : List (Int × Int)) : List (Int × Int) :=
  subSpanGo x1 x2 spans.reverse []

/-- One iteration of the `'region` loop for the Y band `[lo, hi)`:
rectangles not overlapping the band and horizontally empty rectangles
(`x1 == x2`) are skipped; otherwise the rectangle is replayed against the
span list according to its kind. -/
def bandStep (lo hi : Int) (spans : List (Int × Int)) (p : RectKind × Recti) :
    List (Int × Int) :=
  if hi ≤ p.2.y ∨ p.2.y + p.2.h ≤ lo then spans
  else if p.2.x = p.2.x + p.2.w then spans
  else
    match p.1 with
    | .add => addSpan p.2.x (p.2.x + p.2.w) spans
    | .subtract => subSpan p.2.x (p.2.x + p.2.w) spans

/-- The surviving spans of the Y band `[lo, hi)` after replaying the whole
rectangle list in original order. -/
def replayBand (region : Region) (lo hi : Int) : List (Int × Int) :=
  region.foldl (bandStep lo hi) []

/-- `region_to_non_overlapping_rects` from `src/utils/region.rs`: sweep
over consecutive pairs of the sorted unique Y coordinates and emit one
rectangle per surviving span per band
(`Rectangle::from_extremities((x1, lo), (x2, hi))`). -/
def region_to_non_overlapping_rects (region : Region) : List Recti :=
  ((yCoords region).zip (yCoords region).tail).flatMap fun b =>
    (replayBand region b.1 b.2).map fun sp => ⟨sp.1, b.1, sp.2 - sp.1, b.2 - b.1⟩

/-- Coverage of a horizontal coordinate by a span list. -/
def spanCovers (spans : List (Int × Int)) (px : Int) : Prop :=
  ∃ p ∈ spans, p.1 ≤ px ∧ px < p.2

instance (spans : List (Int × Int)) (px : Int) : Decidable (spanCovers spans px) := by
  unfold spanCovers; infer_instance

/-- Coverage of an integer point by the union of a rectangle list. -/
def outputCovers (rects : List Recti) (px py : Int) : Prop :=
  ∃ r ∈ rects, r.containsPt px py

instance (rects : List Recti) (px py : Int) : Decidable (outputCovers rects px py) := by
  unfold outputCovers; infer_instance

/-- The mask value painted by a rectangle of the given kind. -/
def paint : RectKind → Bool
  | .add => true
  | .subtract => false

/-- The boolean-grid oracle: paint the rectangles in their original order
into a boolean mask (`Add` paints true, `Subtract` paints false, later
operations overriding earlier ones), then read off one cell. -/
def oracle (region : Region) (px py : Int) : Bool :=
  region.foldl
    (fun acc p => if p.2.containsPt px py then paint p.1 else acc)
    false

-- Sanity checks against the unit tests in `src/utils/region.rs`.
example : region_to_non_overlapping_rects [] = [] := by decide
example : region_to_non_overlapping_rects [(.add, ⟨0, 0, 10, 10⟩)] = [⟨0, 0, 10, 10⟩] := by
  decide
example : region_to_non_overlapping_rects [(.add, ⟨0, 0, 0, 1⟩)] = [] := by decide
example : region_to_non_overlapping_rects [(.add, ⟨0, 0, 1, 0⟩)] = [] := by decide
example :
    region_to_non_overlapping_rects [(.add, ⟨0, 0, 5, 10⟩), (.add, ⟨7, 0, 5, 10⟩)] =
      [⟨0, 0, 5, 10⟩, ⟨7, 0, 5, 10⟩] := by decide
example :
    region_to_non_overlapping_rects [(.add, ⟨0, 0, 10, 10⟩), (.add, ⟨5, 5, 10, 10⟩)] =
      [⟨0, 0, 10, 5⟩, ⟨0, 5, 15, 5⟩, ⟨5, 10, 10, 5⟩] := by decide
example :
    region_to_non_overlapping_rects [(.add, ⟨0, 0, 20, 20⟩), (.subtract, ⟨5, 5, 10, 10⟩)] =
      [⟨0, 0, 20, 5⟩, ⟨0, 5, 5, 10⟩, ⟨15, 5, 5, 10⟩, ⟨0, 15, 20, 5⟩] := by decide
example :
    region_to_non_overlapping_rects [(.add, ⟨0, 0, 10, 10⟩), (.add, ⟨10, 0, 10, 10⟩)] =
      [⟨0, 0, 20, 10⟩] := by decide

/-! ### Span coverage lemmas -/

theorem spanCovers_nil (px : Int) : ¬ spanCovers [] px := by
  simp [spanCovers]

theorem spanCovers_nil_iff (px : Int) : spanCovers [] px ↔ False := by
  simp [spanCovers]

theorem spanCovers_cons (s e : Int) (l : List (Int × Int)) (px : Int) :
    spanCovers ((s, e) :: l) px ↔ (s ≤ px ∧ px < e) ∨ spanCovers l px := by
  simp [spanCovers]

theorem spanCovers_append (l₁ l₂ : List (Int × Int)) (px : Int) :
    spanCovers (l₁ ++ l₂) px ↔ spanCovers l₁ px ∨ spanCovers l₂ px := by
  simp [spanCovers, or_and_right, exists_or]

theorem spanCovers_reverse (l : List (Int × Int)) (px : Int) :
    spanCovers l.reverse px ↔ spanCovers l px := by
  simp [spanCovers]

/-- Coverage of the `Add` scan: the result covers exactly the new range
plus whatever the scanned prefix and the kept suffix covered. This holds
for arbitrary span lists (no sortedness needed). -/
theorem addSpanGo_covers (x1 x2 : Int) (revPre suffix : List (Int × Int)) (px : Int)
    (h : x1 < x2) :
    spanCovers (addSpanGo x1 x2 revPre suffix) px ↔
      (x1 ≤ px ∧ px < x2) ∨ spanCovers revPre px ∨ spanCovers suffix px := by
  induction revPre generalizing x1 x2 suffix with
  | nil =>
    simp [addSpanGo, spanCovers_cons, spanCovers_nil]
  | cons p revPre ih =>
    obtain ⟨s, e⟩ := p
    by_cases h1 : e < x1
    · simp only [addSpanGo, if_pos h1, spanCovers_append, spanCovers_reverse,
        spanCovers_cons]
      tauto
    · by_cases h2 : x2 < s
      · simp only [addSpanGo, if_neg h1, if_pos h2]
        rw [ih x1 x2 _ h, spanCovers_cons, spanCovers_cons]
        tauto
      · simp only [addSpanGo, if_neg h1, if_pos h2, if_neg h2]
        rw [ih (min x1 s) (max x2 e) _ (by omega), spanCovers_cons]
        constructor
        · rintro (hr | hr | hr)
          · by_cases hin : x1 ≤ px ∧ px < x2
            · exact Or.inl hin
            · exact Or.inr (Or.inl (Or.inl (by omega)))
          · exact Or.inr (Or.inl (Or.inr hr))
          · exact Or.inr (Or.inr hr)
        · rintro (hr | (hr | hr) | hr)
          · exact Or.inl (by omega)
          · exact Or.inl (by omega)
          · exact Or.inr (Or.inl hr)
          · exact Or.inr (Or.inr hr)

theorem addSpan_covers (x1 x2 : Int) (spans : List (Int × Int)) (px : Int)
    (h : x1 < x2) :
    spanCovers (addSpan x1 x2 spans) px ↔
      (x1 ≤ px ∧ px < x2) ∨ spanCovers spans px := by
  unfold addSpan
  rw [addSpanGo_covers x1 x2 _ _ _ h, spanCovers_reverse]
  simp [spanCovers_nil]

/-- Coverage of the `Subtract` scan: with a proper, sorted prefix the
result covers exactly what the prefix covered minus the subtracted range,
plus the already-scanned suffix. The sortedness hypothesis is what makes
the early exit (`end <= x1`) sound. -/
theorem subSpanGo_covers (x1 x2 : Int) (revPre suffix : List (Int × Int)) (px : Int)
    (hwf : ∀ p ∈ revPre, p.1 < p.2)
    (hsorted : revPre.Pairwise fun a b => b.2 < a.1) :
    spanCovers (subSpanGo x1 x2 revPre suffix) px ↔
      (spanCovers revPre px ∧ ¬(x1 ≤ px ∧ px < x2)) ∨ spanCovers suffix px := by
  induction revPre generalizing suffix with
  | nil =>
    simp [subSpanGo, spanCovers_nil]
  | cons p revPre ih =>
    obtain ⟨s, e⟩ := p
    have hse : s < e := hwf (s, e) (by simp)
    have hhead : ∀ q ∈ revPre, q.2 < s := fun q hq =>
      (List.pairwise_cons.mp hsorted).1 q hq
    have hwf' : ∀ q ∈ revPre, q.1 < q.2 := fun q hq => hwf q (List.mem_cons_of_mem _ hq)
    have hsorted' : revPre.Pairwise fun a b => b.2 < a.1 :=
      (List.pairwise_cons.mp hsorted).2
    by_cases h1 : e ≤ x1
    · simp only [subSpanGo, if_pos h1, spanCovers_append, spanCovers_reverse,
        spanCovers_cons]
      constructor
      · rintro ((hr | hr) | hr)
        · exact Or.inl ⟨Or.inl hr, by omega⟩
        · refine Or.inl ⟨Or.inr hr, ?_⟩
          obtain ⟨q, hq, hq1, hq2⟩ := hr
          have := hhead q hq
          omega
        · exact Or.inr hr
      · rintro (⟨hr | hr, _⟩ | hr)
        · exact Or.inl (Or.inl hr)
        · exact Or.inl (Or.inr hr)
        · exact Or.inr hr
    · by_cases h2 : x2 ≤ s
      · simp only [subSpanGo, if_neg h1, if_pos h2]
        rw [ih _ hwf' hsorted', spanCovers_cons, spanCovers_cons]
        constructor
        · rintro (⟨hr, hn⟩ | (hr | hr))
          · exact Or.inl ⟨Or.inr hr, hn⟩
          · exact Or.inl ⟨Or.inl hr, by omega⟩
          · exact Or.inr hr
        · rintro (⟨hr | hr, hn⟩ | hr)
          · exact Or.inr (Or.inl hr)
          · exact Or.inl ⟨hr, hn⟩
          · exact Or.inr (Or.inr hr)
      · simp only [subSpanGo, if_neg h1, if_neg h2]
        rw [ih _ hwf' hsorted']
        have hpieces : ∀ px,
            spanCovers ((if s < x1 then [(s, x1)] else []) ++
              (if x2 < e then [(x2, e)] else []) ++ suffix) px ↔
            ((s ≤ px ∧ px < e) ∧ ¬(x1 ≤ px ∧ px < x2)) ∨ spanCovers suffix px := by
          intro px
          by_cases hA : s < x1
          · by_cases hB : x2 < e
            · rw [if_pos hA, if_pos hB, spanCovers_append, spanCovers_append,
                spanCovers_cons, spanCovers_cons]
              simp only [spanCovers_nil_iff, or_false]
              constructor
              · rintro ((hr | hr) | hr)
                · exact Or.inl (by omega)
                · exact Or.inl (by omega)
                · exact Or.inr hr
              · rintro (⟨hr, hn⟩ | hr)
                · by_cases hl : px < x1
                  · exact Or.inl (Or.inl (by omega))
                  · exact Or.inl (Or.inr (by omega))
                · exact Or.inr hr
            · rw [if_pos hA, if_neg hB, List.append_nil, spanCovers_append,
                spanCovers_cons]
              simp only [spanCovers_nil_iff, or_false]
              constructor
              · rintro (hr | hr)
                · exact Or.inl (by omega)
                · exact Or.inr hr
              · rintro (⟨hr, hn⟩ | hr)
                · exact Or.inl (by omega)
                · exact Or.inr hr
          · by_cases hB : x2 < e
            · rw [if_neg hA, if_pos hB, List.nil_append, spanCovers_append,
                spanCovers_cons]
              simp only [spanCovers_nil_iff, or_false]
              constructor
              · rintro (hr | hr)
                · exact Or.inl (by omega)
                · exact Or.inr hr
              · rintro (⟨hr, hn⟩ | hr)
                · exact Or.inl (by omega)
                · exact Or.inr hr
            · rw [if_neg hA, if_neg hB, List.nil_append, List.nil_append]
              constructor
              · exact fun hr => Or.inr hr
              · rintro (⟨hr, hn⟩ | hr)
                · exact absurd ⟨by omega, by omega⟩ hn
                · exact hr
        rw [hpieces, spanCovers_cons]
        constructor
        · rintro (⟨hr, hn⟩ | ⟨hr, hn⟩ | hr)
          · exact Or.inl ⟨Or.inr hr, hn⟩
          · exact Or.inl ⟨Or.inl hr, hn⟩
          · exact Or.inr hr
        · rintro (⟨hr | hr, hn⟩ | hr)
          · exact Or.inr (Or.inl ⟨hr, hn⟩)
          · exact Or.inl ⟨hr, hn⟩
          · exact Or.inr (Or.inr hr)

theorem subSpan_covers (x1 x2 : Int) (spans : List (Int × Int)) (px : Int)
    (hwf : ∀ p ∈ spans, p.1 < p.2)
    (hsorted : spans.Pairwise fun a b => a.2 < b.1) :
    spanCovers (subSpan x1 x2 spans) px ↔
      spanCovers spans px ∧ ¬(x1 ≤ px ∧ px < x2) := by
  unfold subSpan
  rw [subSpanGo_covers x1 x2 _ _ _ (fun p hp => hwf p (List.mem_reverse.mp hp))
    (List.pairwise_reverse.mpr hsorted), spanCovers_reverse]
  simp [spanCovers_nil]

/-! ### Span well-formedness -/

/-- The invariant of the `spans` vector: "sorted list of non-overlapping
[start, end) tuples" — every span is non-empty and consecutive spans are
separated by a strictly positive gap (touching spans are merged by `Add`). -/
def SpansWF (spans : List (Int × Int)) : Prop :=
  (∀ p ∈ spans, p.1 < p.2) ∧ spans.Pairwise fun a b => a.2 < b.1

theorem SpansWF_nil : SpansWF [] := ⟨by simp, List.Pairwise.nil⟩

theorem addSpanGo_wf (x1 x2 : Int) (revPre suffix : List (Int × Int))
    (h : x1 < x2)
    (hpre : ∀ p ∈ revPre, p.1 < p.2)
    (hps : revPre.Pairwise fun a b => b.2 < a.1)
    (hsuf : SpansWF suffix)
    (hsep : ∀ a ∈ revPre, ∀ b ∈ suffix, a.2 < b.1)
    (hnew : ∀ b ∈ suffix, x2 < b.1) :
    SpansWF (addSpanGo x1 x2 revPre suffix) := by
  induction revPre generalizing x1 x2 suffix with
  | nil =>
    refine ⟨?_, List.pairwise_cons.mpr ⟨hnew, hsuf.2⟩⟩
    intro p hp
    rcases List.mem_cons.mp hp with h' | h'
    · subst h'; exact h
    · exact hsuf.1 p h'
  | cons p revPre ih =>
    obtain ⟨s, e⟩ := p
    have hse : s < e := hpre (s, e) (by simp)
    have hhead : ∀ q ∈ revPre, q.2 < s := fun q hq =>
      (List.pairwise_cons.mp hps).1 q hq
    have hpre' : ∀ q ∈ revPre, q.1 < q.2 := fun q hq =>
      hpre q (List.mem_cons_of_mem _ hq)
    have hps' : revPre.Pairwise fun a b => b.2 < a.1 := (List.pairwise_cons.mp hps).2
    by_cases h1 : e < x1
    · simp only [addSpanGo, if_pos h1]
      constructor
      · intro q hq
        rcases List.mem_append.mp hq with h' | h'
        · exact hpre q (List.mem_reverse.mp h')
        · rcases List.mem_cons.mp h' with h'' | h''
          · subst h''; exact h
          · exact hsuf.1 q h''
      · rw [List.pairwise_append]
        refine ⟨List.pairwise_reverse.mpr hps, List.pairwise_cons.mpr ⟨hnew, hsuf.2⟩, ?_⟩
        intro a ha b hb
        have ha' := List.mem_reverse.mp ha
        rcases List.mem_cons.mp hb with hb' | hb'
        · subst hb'
          rcases List.mem_cons.mp ha' with ha'' | ha''
          · subst ha''; exact h1
          · have := hhead a ha''; omega
        · exact hsep a ha' b hb'
    · by_cases h2 : x2 < s
      · simp only [addSpanGo, if_neg h1, if_pos h2]
        refine ih x1 x2 _ h hpre' hps' ?_ ?_ ?_
        · refine ⟨?_, List.pairwise_cons.mpr ⟨fun b hb => hsep (s, e) (by simp) b hb, hsuf.2⟩⟩
          intro q hq
          rcases List.mem_cons.mp hq with h' | h'
          · subst h'; exact hse
          · exact hsuf.1 q h'
        · intro a ha b hb
          rcases List.mem_cons.mp hb with h' | h'
          · subst h'; exact hhead a ha
          · exact hsep a (List.mem_cons_of_mem _ ha) b h'
        · intro b hb
          rcases List.mem_cons.mp hb with h' | h'
          · subst h'; exact h2
          · exact hnew b h'
      · simp only [addSpanGo, if_neg h1, if_neg h2]
        refine ih (min x1 s) (max x2 e) _ (by omega) hpre' hps' hsuf ?_ ?_
        · exact fun a ha b hb => hsep a (List.mem_cons_of_mem _ ha) b hb
        · intro b hb
          have h3 := hnew b hb
          have h4 := hsep (s, e) (by simp) b hb
          simp only at h4
          omega

theorem addSpan_wf (x1 x2 : Int) (spans : List (Int × Int)) (h : x1 < x2)
    (hwf : SpansWF spans) : SpansWF (addSpan x1 x2 spans) := by
  refine addSpanGo_wf x1 x2 _ _ h ?_ ?_ SpansWF_nil ?_ ?_
  · exact fun p hp => hwf.1 p (List.mem_reverse.mp hp)
  · exact List.pairwise_reverse.mpr hwf.2
  · simp
  · simp

theorem subSpanGo_wf (x1 x2 : Int) (revPre suffix : List (Int × Int))
    (h : x1 < x2)
    (hpre : ∀ p ∈ revPre, p.1 < p.2)
    (hps : revPre.Pairwise fun a b => b.2 < a.1)
    (hsuf : SpansWF suffix)
    (hsep : ∀ a ∈ revPre, ∀ b ∈ suffix, a.2 < b.1) :
    SpansWF (subSpanGo x1 x2 revPre suffix) := by
  induction revPre generalizing suffix with
  | nil => exact hsuf
  | cons p revPre ih =>
    obtain ⟨s, e⟩ := p
    have hse : s < e := hpre (s, e) (by simp)
    have hhead : ∀ q ∈ revPre, q.2 < s := fun q hq =>
      (List.pairwise_cons.mp hps).1 q hq
    have hpre' : ∀ q ∈ revPre, q.1 < q.2 := fun q hq =>
      hpre q (List.mem_cons_of_mem _ hq)
    have hps' : revPre.Pairwise fun a b => b.2 < a.1 := (List.pairwise_cons.mp hps).2
    by_cases h1 : e ≤ x1
    · simp only [subSpanGo, if_pos h1]
      constructor
      · intro q hq
        rcases List.mem_append.mp hq with h' | h'
        · exact hpre q (List.mem_reverse.mp h')
        · exact hsuf.1 q h'
      · rw [List.pairwise_append]
        exact ⟨List.pairwise_reverse.mpr hps, hsuf.2,
          fun a ha b hb => hsep a (List.mem_reverse.mp ha) b hb⟩
    · by_cases h2 : x2 ≤ s
      · simp only [subSpanGo, if_neg h1, if_pos h2]
        refine ih _ hpre' hps' ?_ ?_
        · refine ⟨?_, List.pairwise_cons.mpr ⟨fun b hb => hsep (s, e) (by simp) b hb, hsuf.2⟩⟩
          intro q hq
          rcases List.mem_cons.mp hq with h' | h'
          · subst h'; exact hse
          · exact hsuf.1 q h'
        · intro a ha b hb
          rcases List.mem_cons.mp hb with h' | h'
          · subst h'; exact hhead a ha
          · exact hsep a (List.mem_cons_of_mem _ ha) b h'
      · simp only [subSpanGo, if_neg h1, if_neg h2]
        have hesuf : ∀ b ∈ suffix, e < b.1 := fun b hb => hsep (s, e) (by simp) b hb
        by_cases hA : s < x1
        · by_cases hB : x2 < e
          · rw [if_pos hA, if_pos hB]
            simp only [List.cons_append, List.nil_append]
            refine ih _ hpre' hps' ⟨?_, ?_⟩ ?_
            · intro q hq
              rcases List.mem_cons.mp hq with rfl | hq
              · exact hA
              rcases List.mem_cons.mp hq with rfl | hq
              · exact hB
              · exact hsuf.1 q hq
            · refine List.pairwise_cons.mpr ⟨?_, List.pairwise_cons.mpr ⟨?_, hsuf.2⟩⟩
              · intro b hb
                rcases List.mem_cons.mp hb with rfl | hb
                · exact h
                · have := hesuf b hb; simp only; omega
              · exact fun b hb => hesuf b hb
            · intro a ha b hb
              have ha' := hhead a ha
              rcases List.mem_cons.mp hb with rfl | hb
              · exact ha'
              rcases List.mem_cons.mp hb with rfl | hb
              · simp only; omega
              · exact hsep a (List.mem_cons_of_mem _ ha) b hb
          · rw [if_pos hA, if_neg hB]
            simp only [List.append_nil, List.cons_append, List.nil_append]
            refine ih _ hpre' hps' ⟨?_, ?_⟩ ?_
            · intro q hq
              rcases List.mem_cons.mp hq with rfl | hq
              · exact hA
              · exact hsuf.1 q hq
            · refine List.pairwise_cons.mpr ⟨?_, hsuf.2⟩
              intro b hb
              have := hesuf b hb; simp only; omega
            · intro a ha b hb
              have ha' := hhead a ha
              rcases List.mem_cons.mp hb with rfl | hb
              · exact ha'
              · exact hsep a (List.mem_cons_of_mem _ ha) b hb
        · by_cases hB : x2 < e
          · rw [if_neg hA, if_pos hB]
            simp only [List.cons_append, List.nil_append]
            refine ih _ hpre' hps' ⟨?_, ?_⟩ ?_
            · intro q hq
              rcases List.mem_cons.mp hq with rfl | hq
              · exact hB
              · exact hsuf.1 q hq
            · refine List.pairwise_cons.mpr ⟨?_, hsuf.2⟩
              exact fun b hb => hesuf b hb
            · intro a ha b hb
              have ha' := hhead a ha
              rcases List.mem_cons.mp hb with rfl | hb
              · simp only; omega
              · exact hsep a (List.mem_cons_of_mem _ ha) b hb
          · rw [if_neg hA, if_neg hB]
            simp only [List.nil_append]
            exact ih _ hpre' hps' hsuf
              (fun a ha b hb => hsep a (List.mem_cons_of_mem _ ha) b hb)

theorem subSpan_wf (x1 x2 : Int) (spans : List (Int × Int)) (h : x1 < x2)
    (hwf : SpansWF spans) : SpansWF (subSpan x1 x2 spans) := by
  refine subSpanGo_wf x1 x2 _ _ h ?_ ?_ SpansWF_nil ?_
  · exact fun p hp => hwf.1 p (List.mem_reverse.mp hp)
  · exact List.pairwise_reverse.mpr hwf.2
  · simp

/-! ### Band replay correctness -/

/-- The oracle fold with an explicit starting mask value. -/
def oracleFrom (region : Region) (px py : Int) (b : Bool) : Bool :=
  region.foldl
    (fun acc p => if p.2.containsPt px py then paint p.1 else acc)
    b

theorem oracle_eq_oracleFrom (region : Region) (px py : Int) :
    oracle region px py = oracleFrom region px py false := rfl

theorem oracleFrom_cons (k : RectKind) (r : Recti) (region : Region)
    (px py : Int) (b : Bool) :
    oracleFrom ((k, r) :: region) px py b =
      oracleFrom region px py (if r.containsPt px py then paint k else b) := rfl

/-- Replaying rectangles over a Y band whose interior contains no
rectangle edge: the surviving spans stay well-formed and cover exactly the
points the painting oracle would leave set, for any row `py` inside the
band. -/
theorem replay_correct (region : Region) (lo hi py : Int)
    (hw : ∀ p ∈ region, 0 ≤ p.2.w)
    (hband : ∀ p ∈ region,
      ¬(lo < p.2.y ∧ p.2.y < hi) ∧ ¬(lo < p.2.y + p.2.h ∧ p.2.y + p.2.h < hi))
    (hpy : lo ≤ py ∧ py < hi) :
    ∀ spans (b : Int → Bool), SpansWF spans →
      (∀ px, spanCovers spans px ↔ b px = true) →
      SpansWF (List.foldl (bandStep lo hi) spans region) ∧
      ∀ px, spanCovers (List.foldl (bandStep lo hi) spans region) px ↔
        oracleFrom region px py (b px) = true := by
  induction region with
  | nil =>
    intro spans b hwf hcov
    exact ⟨hwf, fun px => by simpa [oracleFrom] using hcov px⟩
  | cons p region ih =>
    intro spans b hwf hcov
    obtain ⟨k, r⟩ := p
    have hw' : ∀ q ∈ region, 0 ≤ q.2.w := fun q hq => hw q (List.mem_cons_of_mem _ hq)
    have hband' : ∀ q ∈ region,
        ¬(lo < q.2.y ∧ q.2.y < hi) ∧ ¬(lo < q.2.y + q.2.h ∧ q.2.y + q.2.h < hi) :=
      fun q hq => hband q (List.mem_cons_of_mem _ hq)
    have hwr : (0 : Int) ≤ r.w := hw (k, r) (by simp)
    have hbr := hband (k, r) (by simp)
    simp only at hbr
    rw [List.foldl_cons]
    have hmain :
        SpansWF (bandStep lo hi spans (k, r)) ∧
        ∀ px, spanCovers (bandStep lo hi spans (k, r)) px ↔
          (if r.containsPt px py then paint k else b px) = true := by
      by_cases hskip : hi ≤ r.y ∨ r.y + r.h ≤ lo
      · have hnc : ∀ px, ¬ r.containsPt px py := by
          intro px hc
          obtain ⟨_, _, hy1, hy2⟩ := hc
          omega
        rw [show bandStep lo hi spans (k, r) = spans from if_pos hskip]
        refine ⟨hwf, fun px => ?_⟩
        rw [if_neg (hnc px)]
        exact hcov px
      · push_neg at hskip
        have hskip' : ¬(hi ≤ r.y ∨ r.y + r.h ≤ lo) := by omega
        have hyl : r.y ≤ lo := by
          have := hbr.1
          omega
        have hyh : hi ≤ r.y + r.h := by
          have := hbr.2
          omega
        have hcnt : ∀ px, r.containsPt px py ↔ (r.x ≤ px ∧ px < r.x + r.w) := by
          intro px
          unfold Recti.containsPt
          omega
        by_cases hempty : r.x = r.x + r.w
        · have hnc : ∀ px, ¬ r.containsPt px py := by
            intro px hc
            rw [hcnt px] at hc
            omega
          rw [show bandStep lo hi spans (k, r) = spans from by
            unfold bandStep
            rw [if_neg hskip', if_pos hempty]]
          refine ⟨hwf, fun px => ?_⟩
          rw [if_neg (hnc px)]
          exact hcov px
        · have hx : r.x < r.x + r.w := by omega
          cases k with
          | add =>
            rw [show bandStep lo hi spans (.add, r) = addSpan r.x (r.x + r.w) spans from by
              unfold bandStep
              rw [if_neg hskip', if_neg hempty]]
            refine ⟨addSpan_wf _ _ _ hx hwf, fun px => ?_⟩
            rw [addSpan_covers _ _ _ _ hx]
            by_cases hc : r.x ≤ px ∧ px < r.x + r.w
            · rw [if_pos ((hcnt px).mpr hc)]
              simp [hc, paint]
            · rw [if_neg (fun h' => hc ((hcnt px).mp h'))]
              rw [hcov px]
              simp [hc]
          | subtract =>
            rw [show bandStep lo hi spans (.subtract, r) = subSpan r.x (r.x + r.w) spans from by
              unfold bandStep
              rw [if_neg hskip', if_neg hempty]]
            refine ⟨subSpan_wf _ _ _ hx hwf, fun px => ?_⟩
            rw [subSpan_covers _ _ _ _ hwf.1 hwf.2]
            by_cases hc : r.x ≤ px ∧ px < r.x + r.w
            · rw [if_pos ((hcnt px).mpr hc)]
              simp [hc, paint]
            · rw [if_neg (fun h' => hc ((hcnt px).mp h'))]
              rw [hcov px]
              simp [hc]
    obtain ⟨hwf2, hcov2⟩ :=
      ih hw' hband' (bandStep lo hi spans (k, r))
        (fun px => if r.containsPt px py then paint k else b px)
        hmain.1 hmain.2
    exact ⟨hwf2, fun px => by rw [hcov2 px, oracleFrom_cons]⟩

/-- The spans of a full band: well-formed and matching the oracle. -/
theorem replayBand_correct (region : Region) (lo hi py : Int)
    (hw : ∀ p ∈ region, 0 ≤ p.2.w)
    (hband : ∀ p ∈ region,
      ¬(lo < p.2.y ∧ p.2.y < hi) ∧ ¬(lo < p.2.y + p.2.h ∧ p.2.y + p.2.h < hi))
    (hpy : lo ≤ py ∧ py < hi) :
    SpansWF (replayBand region lo hi) ∧
    ∀ px, spanCovers (replayBand region lo hi) px ↔ oracle region px py = true := by
  have := replay_correct region lo hi py hw hband hpy [] (fun _ => false)
    SpansWF_nil (by simp [spanCovers])
  exact ⟨this.1, fun px => by rw [oracle_eq_oracleFrom]; exact this.2 px⟩

/-! ### Sorted Y coordinates and bands -/

theorem insertY_mem (x : Int) (l : List Int) (a : Int) :
    a ∈ insertY x l ↔ a = x ∨ a ∈ l := by
  induction l with
  | nil => simp [insertY]
  | cons y ys ih =>
    by_cases h1 : x < y
    · have heq : insertY x (y :: ys) = x :: y :: ys := by
        simp only [insertY]; rw [if_pos h1]
      rw [heq]
      simp only [List.mem_cons]
    · by_cases h2 : x = y
      · subst h2
        have heq : insertY x (x :: ys) = x :: ys := by
          simp only [insertY]; rw [if_neg h1, if_pos trivial]
        rw [heq]
        simp only [List.mem_cons]
        tauto
      · have heq : insertY x (y :: ys) = y :: insertY x ys := by
          simp only [insertY]; rw [if_neg h1, if_neg h2]
        rw [heq]
        simp only [List.mem_cons, ih]
        tauto

theorem insertY_pairwise (x : Int) (l : List Int) (hl : l.Pairwise (· < ·)) :
    (insertY x l).Pairwise (· < ·) := by
  induction l with
  | nil => simp [insertY]
  | cons y ys ih =>
    obtain ⟨hy, hys⟩ := List.pairwise_cons.mp hl
    by_cases h1 : x < y
    · have heq : insertY x (y :: ys) = x :: y :: ys := by
        simp only [insertY]; rw [if_pos h1]
      rw [heq]
      refine List.pairwise_cons.mpr ⟨?_, hl⟩
      intro b hb
      rcases List.mem_cons.mp hb with rfl | hb
      · exact h1
      · exact lt_trans h1 (hy b hb)
    · by_cases h2 : x = y
      · have heq : insertY x (y :: ys) = y :: ys := by
          simp only [insertY]; rw [if_neg h1, if_pos h2]
        rw [heq]
        exact hl
      · have heq : insertY x (y :: ys) = y :: insertY x ys := by
          simp only [insertY]; rw [if_neg h1, if_neg h2]
        rw [heq]
        refine List.pairwise_cons.mpr ⟨?_, ih hys⟩
        intro b hb
        rcases (insertY_mem x ys b).mp hb with rfl | hb
        · omega
        · exact hy b hb

theorem yCoords_foldl_mem (region : Region) (acc : List Int) (a : Int) :
    a ∈ region.foldl (fun acc p => insertY (p.2.y + p.2.h) (insertY p.2.y acc)) acc ↔
      a ∈ acc ∨ ∃ p ∈ region, a = p.2.y ∨ a = p.2.y + p.2.h := by
  induction region generalizing acc with
  | nil => simp
  | cons p region ih =>
    rw [List.foldl_cons, ih, insertY_mem, insertY_mem]
    simp only [List.mem_cons]
    constructor
    · rintro ((h | h | h) | ⟨q, hq, h⟩)
      · exact Or.inr ⟨p, Or.inl rfl, Or.inr h⟩
      · exact Or.inr ⟨p, Or.inl rfl, Or.inl h⟩
      · exact Or.inl h
      · exact Or.inr ⟨q, Or.inr hq, h⟩
    · rintro (h | ⟨q, hq, h⟩)
      · exact Or.inl (Or.inr (Or.inr h))
      · rcases hq with rfl | hq
        · rcases h with h | h
          · exact Or.inl (Or.inr (Or.inl h))
          · exact Or.inl (Or.inl h)
        · exact Or.inr ⟨q, hq, h⟩

theorem yCoords_mem (region : Region) (a : Int) :
    a ∈ yCoords region ↔ ∃ p ∈ region, a = p.2.y ∨ a = p.2.y + p.2.h := by
  rw [yCoords, yCoords_foldl_mem]
  simp

theorem yCoords_pairwise (region : Region) : (yCoords region).Pairwise (· < ·) := by
  rw [yCoords]
  generalize hacc : ([] : List Int) = acc
  have h : acc.Pairwise (· < ·) := by rw [← hacc]; exact List.Pairwise.nil
  clear hacc
  induction region generalizing acc with
  | nil => exact h
  | cons p region ih =>
    exact ih _ (insertY_pairwise _ _ (insertY_pairwise _ _ h))

theorem mem_zip_tail : ∀ {l : List Int} {p : Int × Int},
    p ∈ l.zip l.tail → p.1 ∈ l ∧ p.2 ∈ l := by
  intro l
  induction l with
  | nil => simp
  | cons a rest ih =>
    intro p hp
    cases rest with
    | nil => simp at hp
    | cons c rest' =>
      rw [List.tail_cons, List.zip_cons_cons] at hp
      rcases List.mem_cons.mp hp with rfl | hp
      · exact ⟨by simp, by simp⟩
      · have := ih hp
        exact ⟨List.mem_cons_of_mem _ this.1, List.mem_cons_of_mem _ this.2⟩

theorem band_lt : ∀ {l : List Int}, l.Pairwise (· < ·) → ∀ {p : Int × Int},
    p ∈ l.zip l.tail → p.1 < p.2 := by
  intro l
  induction l with
  | nil => simp
  | cons a rest ih =>
    intro hl p hp
    cases rest with
    | nil => simp at hp
    | cons c rest' =>
      rw [List.tail_cons, List.zip_cons_cons] at hp
      rcases List.mem_cons.mp hp with rfl | hp2
      · exact (List.pairwise_cons.mp hl).1 c (by simp)
      · exact ih (List.pairwise_cons.mp hl).2 hp2

theorem band_no_interior : ∀ {l : List Int}, l.Pairwise (· < ·) → ∀ {p : Int × Int},
    p ∈ l.zip l.tail → ∀ a ∈ l, ¬(p.1 < a ∧ a < p.2) := by
  intro l
  induction l with
  | nil => simp
  | cons x rest ih =>
    intro hl p hp a ha
    obtain ⟨hx, hrest⟩ := List.pairwise_cons.mp hl
    cases rest with
    | nil => simp at hp
    | cons c rest' =>
      rw [List.tail_cons, List.zip_cons_cons] at hp
      rcases List.mem_cons.mp hp with rfl | hp2
      · rcases List.mem_cons.mp ha with rfl | ha2
        · simp
        · rcases List.mem_cons.mp ha2 with rfl | ha3
          · simp
          · have h1 : c < a := (List.pairwise_cons.mp hrest).1 a ha3
            simp only
            omega
      · rcases List.mem_cons.mp ha with rfl | ha2
        · have h1 : a < p.1 := hx p.1 (mem_zip_tail hp2).1
          omega
        · exact ih hrest hp2 a ha2

theorem band_exists : ∀ {l : List Int}, l.Pairwise (· < ·) → ∀ {py : Int},
    (∃ a ∈ l, a ≤ py) → (∃ b ∈ l, py < b) →
    ∃ p ∈ l.zip l.tail, p.1 ≤ py ∧ py < p.2 := by
  intro l
  induction l with
  | nil => simp
  | cons x rest ih =>
    intro hl py h1 h2
    obtain ⟨hx, hrest⟩ := List.pairwise_cons.mp hl
    cases rest with
    | nil =>
      obtain ⟨a, ha, hle⟩ := h1
      obtain ⟨b, hb, hlt⟩ := h2
      simp only [List.mem_singleton] at ha hb
      omega
    | cons c rest' =>
      rw [List.tail_cons, List.zip_cons_cons]
      by_cases hc : py < c
      · have hxle : x ≤ py := by
          obtain ⟨a, ha, hle⟩ := h1
          rcases List.mem_cons.mp ha with rfl | ha2
          · exact hle
          · have hgt := hx a ha2
            omega
        exact ⟨(x, c), by simp, hxle, hc⟩
      · push_neg at hc
        have h2' : ∃ b ∈ c :: rest', py < b := by
          obtain ⟨b, hb, hlt⟩ := h2
          rcases List.mem_cons.mp hb with rfl | hb2
          · have hbc : b < c := hx c (by simp)
            exact ⟨c, by simp, by omega⟩
          · exact ⟨b, hb2, hlt⟩
        obtain ⟨q, hq, hq1, hq2⟩ := ih hrest ⟨c, by simp, hc⟩ h2'
        exact ⟨q, List.mem_cons_of_mem _ hq, hq1, hq2⟩

theorem band_pairwise : ∀ {l : List Int}, l.Pairwise (· < ·) →
    (l.zip l.tail).Pairwise fun p q => p.2 ≤ q.1 := by
  intro l
  induction l with
  | nil => simp
  | cons x rest ih =>
    intro hl
    cases rest with
    | nil => simp
    | cons c rest' =>
      rw [List.tail_cons, List.zip_cons_cons]
      obtain ⟨hx, hrest⟩ := List.pairwise_cons.mp hl
      refine List.pairwise_cons.mpr ⟨?_, ih hrest⟩
      intro q hq
      have hq1 := (mem_zip_tail hq).1
      rcases List.mem_cons.mp hq1 with h | h
      · omega
      · have := (List.pairwise_cons.mp hrest).1 q.1 h
        omega

/-! ### Decomposition vs. oracle (claims C1, C2) -/

theorem mem_region_output (region : Region) (r : Recti) :
    r ∈ region_to_non_overlapping_rects region ↔
      ∃ b ∈ (yCoords region).zip (yCoords region).tail,
        ∃ sp ∈ replayBand region b.1 b.2,
          r = ⟨sp.1, b.1, sp.2 - sp.1, b.2 - b.1⟩ := by
  unfold region_to_non_overlapping_rects
  rw [List.mem_flatMap]
  constructor
  · rintro ⟨b, hb, hr⟩
    rw [List.mem_map] at hr
    obtain ⟨sp, hsp, rfl⟩ := hr
    exact ⟨b, hb, sp, hsp, rfl⟩
  · rintro ⟨b, hb, sp, hsp, rfl⟩
    exact ⟨b, hb, List.mem_map.mpr ⟨sp, hsp, rfl⟩⟩

theorem oracleFrom_not_contains (region : Region) (px py : Int) (b : Bool)
    (h : ∀ p ∈ region, ¬ p.2.containsPt px py) : oracleFrom region px py b = b := by
  induction region generalizing b with
  | nil => rfl
  | cons p region ih =>
    obtain ⟨k, r⟩ := p
    rw [oracleFrom_cons, if_neg (h (k, r) (by simp))]
    exact ih b (fun q hq => h q (List.mem_cons_of_mem _ hq))

/-- The band hypotheses of `replayBand_correct`, discharged for an actual
band of consecutive Y coordinates. -/
theorem band_hyp (region : Region) {b : Int × Int}
    (hb : b ∈ (yCoords region).zip (yCoords region).tail) :
    ∀ p ∈ region,
      ¬(b.1 < p.2.y ∧ p.2.y < b.2) ∧ ¬(b.1 < p.2.y + p.2.h ∧ p.2.y + p.2.h < b.2) := by
  intro p hp
  have hys := yCoords_pairwise region
  constructor
  · exact band_no_interior hys hb _ ((yCoords_mem region _).mpr ⟨p, hp, Or.inl rfl⟩)
  · exact band_no_interior hys hb _ ((yCoords_mem region _).mpr ⟨p, hp, Or.inr rfl⟩)

/-- Core correctness: for regions whose rectangles all have non-negative
width, the integer points covered by the union of the output of
`region_to_non_overlapping_rects` are exactly the points left set by the
boolean-grid painting oracle. -/
theorem decomposition_oracle_core (region : Region)
    (hw : ∀ p ∈ region, 0 ≤ p.2.w) (px py : Int) :
    outputCovers (region_to_non_overlapping_rects region) px py ↔
      oracle region px py = true := by
  have hys := yCoords_pairwise region
  constructor
  · rintro ⟨r, hr, hcont⟩
    rw [mem_region_output] at hr
    obtain ⟨b, hb, sp, hsp, rfl⟩ := hr
    obtain ⟨hx1, hx2, hy1, hy2⟩ := hcont
    simp only at hx1 hx2 hy1 hy2
    have hlo : b.1 < b.2 := band_lt hys hb
    have hpy : b.1 ≤ py ∧ py < b.2 := ⟨hy1, by omega⟩
    obtain ⟨hwf, hcov⟩ :=
      replayBand_correct region b.1 b.2 py hw (band_hyp region hb) hpy
    exact (hcov px).mp ⟨sp, hsp, by omega⟩
  · intro hor
    have hex : ∃ p ∈ region, p.2.containsPt px py := by
      by_contra hne
      push_neg at hne
      rw [oracle_eq_oracleFrom, oracleFrom_not_contains region px py false hne] at hor
      exact Bool.false_ne_true hor
    obtain ⟨p, hp, hc⟩ := hex
    obtain ⟨_, _, hy1, hy2⟩ := hc
    have h1 : ∃ a ∈ yCoords region, a ≤ py :=
      ⟨p.2.y, (yCoords_mem region _).mpr ⟨p, hp, Or.inl rfl⟩, hy1⟩
    have h2 : ∃ a ∈ yCoords region, py < a :=
      ⟨p.2.y + p.2.h, (yCoords_mem region _).mpr ⟨p, hp, Or.inr rfl⟩, hy2⟩
    obtain ⟨b, hb, hble, hblt⟩ := band_exists hys h1 h2
    obtain ⟨hwf, hcov⟩ :=
      replayBand_correct region b.1 b.2 py hw (band_hyp region hb) ⟨hble, hblt⟩
    obtain ⟨sp, hsp, hsp1, hsp2⟩ := (hcov px).mpr hor
    refine ⟨⟨sp.1, b.1, sp.2 - sp.1, b.2 - b.1⟩,
      (mem_region_output region _).mpr ⟨b, hb, sp, hsp, rfl⟩, ?_⟩
    show sp.1 ≤ px ∧ px < sp.1 + (sp.2 - sp.1) ∧ b.1 ≤ py ∧ py < b.1 + (b.2 - b.1)
    exact ⟨by omega, by omega, by omega, by omega⟩

/-- Dropping rectangles with non-positive width or height does not change
the oracle: such rectangles contain no integer point. -/
theorem oracleFrom_filter (region : Region) (px py : Int) (b : Bool) :
    oracleFrom (region.filter fun p => 0 < p.2.w && 0 < p.2.h) px py b =
      oracleFrom region px py b := by
  induction region generalizing b with
  | nil => rfl
  | cons p region ih =>
    obtain ⟨k, r⟩ := p
    by_cases hkeep : (0 < r.w && 0 < r.h) = true
    · rw [List.filter_cons_of_pos (by simpa using hkeep), oracleFrom_cons,
        oracleFrom_cons, ih]
    · rw [List.filter_cons_of_neg (by simpa using hkeep), oracleFrom_cons]
      have hnc : ¬ r.containsPt px py := by
        simp only [Bool.and_eq_true, decide_eq_true_eq, not_and_or, not_lt] at hkeep
        unfold Recti.containsPt
        omega
      rw [if_neg hnc, ih]

/-- Generic pairwise lemma for `flatMap`. -/
theorem pairwise_flatMap_of {α β : Type} (R : β → β → Prop) (f : α → List β)
    (l : List α) (h1 : ∀ a ∈ l, (f a).Pairwise R)
    (h2 : l.Pairwise fun a b => ∀ x ∈ f a, ∀ y ∈ f b, R x y) :
    (l.flatMap f).Pairwise R := by
  induction l with
  | nil => simp
  | cons a l ih =>
    rw [List.flatMap_cons, List.pairwise_append]
    refine ⟨h1 a (by simp), ih (fun q hq => h1 q (List.mem_cons_of_mem _ hq))
      (List.pairwise_cons.mp h2).2, ?_⟩
    intro x hx y hy
    rw [List.mem_flatMap] at hy
    obtain ⟨q, hq, hy⟩ := hy
    exact (List.pairwise_cons.mp h2).1 q hq x hx y hy

/-- C2, amended: for regions whose rectangles all have non-negative width,
every output rectangle has strictly positive width and height, the output
rectangles are pairwise non-overlapping, and rectangles with non-positive
height or zero width (in particular zero-sized ones) contribute nothing to
the covered area. -/
theorem decomposition_disjoint_positive (region : Region)
    (hw : ∀ p ∈ region, 0 ≤ p.2.w) :
    (∀ r ∈ region_to_non_overlapping_rects region, 0 < r.w ∧ 0 < r.h) ∧
    (region_to_non_overlapping_rects region).Pairwise
      (fun r1 r2 => ∀ qx qy, ¬(r1.containsPt qx qy ∧ r2.containsPt qx qy)) ∧
    (∀ px py,
      outputCovers (region_to_non_overlapping_rects
        (region.filter fun p => 0 < p.2.w && 0 < p.2.h)) px py ↔
      outputCovers (region_to_non_overlapping_rects region) px py) := by
  have hys := yCoords_pairwise region
  have hbandwf : ∀ b ∈ (yCoords region).zip (yCoords region).tail,
      SpansWF (replayBand region b.1 b.2) := by
    intro b hb
    have hlo : b.1 < b.2 := band_lt hys hb
    exact (replayBand_correct region b.1 b.2 b.1 hw (band_hyp region hb)
      ⟨le_refl _, hlo⟩).1
  refine ⟨?_, ?_, ?_⟩
  · intro r hr
    rw [mem_region_output] at hr
    obtain ⟨b, hb, sp, hsp, rfl⟩ := hr
    have hlo : b.1 < b.2 := band_lt hys hb
    have hprop := (hbandwf b hb).1 sp hsp
    show 0 < sp.2 - sp.1 ∧ 0 < b.2 - b.1
    exact ⟨by omega, by omega⟩
  · unfold region_to_non_overlapping_rects
    refine pairwise_flatMap_of _ _ _ ?_ ?_
    · intro b hb
      rw [List.pairwise_map]
      refine List.Pairwise.imp ?_ (hbandwf b hb).2
      intro sp1 sp2 hlt qx qy hq
      obtain ⟨⟨ha1, ha2, _, _⟩, ⟨hb1, hb2, _, _⟩⟩ := hq
      simp only at ha1 ha2 hb1 hb2
      omega
    · refine List.Pairwise.imp ?_ (band_pairwise hys)
      intro b1 b2 hle x hx y hy
      rw [List.mem_map] at hx hy
      obtain ⟨sp1, _, rfl⟩ := hx
      obtain ⟨sp2, _, rfl⟩ := hy
      intro qx qy hq
      obtain ⟨⟨_, _, ha3, ha4⟩, ⟨_, _, hb3, hb4⟩⟩ := hq
      simp only at ha3 ha4 hb3 hb4
      omega
  · intro px py
    have hw' : ∀ p ∈ region.filter (fun p => 0 < p.2.w && 0 < p.2.h), 0 ≤ p.2.w := by
      intro p hp
      exact hw p (List.mem_of_mem_filter hp)
    rw [decomposition_oracle_core _ hw' px py,
      decomposition_oracle_core _ hw px py,
      oracle_eq_oracleFrom, oracle_eq_oracleFrom, oracleFrom_filter]

/-! ### Claim theorems C1 and C2 -/

/-- C1 (counterexample to the claim as stated): for the region
`[Add (0,0)-(8,1), Add (10,0)-(3,1) (width -7), Subtract (5,0)-(7,1)]` the
decomposition covers the point (6,0) although the painting oracle leaves
it unset: the inverted span produced by the negative-width `Add` makes the
`Subtract` scan exit early, so the subtraction is lost. -/
theorem region_decomposition_oracle_counterexample :
    outputCovers (region_to_non_overlapping_rects
      [(.add, ⟨0, 0, 8, 1⟩), (.add, ⟨10, 0, -7, 1⟩), (.subtract, ⟨5, 0, 2, 1⟩)]) 6 0 ∧
    oracle [(.add, ⟨0, 0, 8, 1⟩), (.add, ⟨10, 0, -7, 1⟩), (.subtract, ⟨5, 0, 2, 1⟩)] 6 0
      = false := by
  constructor
  · exact ⟨⟨0, 0, 8, 1⟩, by decide, by decide⟩
  · decide

/-- C1 (amended): for every input region whose rectangles all have
non-negative width, the set of integer points covered by the union of the
rectangles output by `region_to_non_overlapping_rects` equals the set
covered by painting the input rectangles in their original order with
mask-painting semantics, as computed by the boolean-grid oracle. -/
theorem region_decomposition_matches_grid_oracle (region : Region)
    (hw : ∀ p ∈ region, 0 ≤ p.2.w) (px py : Int) :
    outputCovers (region_to_non_overlapping_rects region) px py ↔
      oracle region px py = true :=
  decomposition_oracle_core region hw px py

theorem region_decomposition_matches_grid_oracle_witness :
    (∀ p ∈ ([(.add, ⟨0, 0, 20, 20⟩), (.subtract, ⟨5, 5, 10, 10⟩)] : Region), 0 ≤ p.2.w) ∧
    (outputCovers (region_to_non_overlapping_rects
        [(.add, ⟨0, 0, 20, 20⟩), (.subtract, ⟨5, 5, 10, 10⟩)]) 2 3 ↔
      oracle [(.add, ⟨0, 0, 20, 20⟩), (.subtract, ⟨5, 5, 10, 10⟩)] 2 3 = true) :=
  ⟨by decide,
    region_decomposition_matches_grid_oracle
      [(.add, ⟨0, 0, 20, 20⟩), (.subtract, ⟨5, 5, 10, 10⟩)] (by decide) 2 3⟩

/-- C2 (counterexample to the claim as stated): a single negative-width
`Add` rectangle flows through `region_to_non_overlapping_rects` unchanged,
so the output contains a rectangle of width -5 — it is neither dropped nor
positive-sized (only `x1 == x2`, i.e. zero width, is skipped by the code;
negative heights and zero sizes really are treated as empty). -/
theorem region_decomposition_negative_width_counterexample :
    region_to_non_overlapping_rects [(.add, ⟨0, 0, -5, 10⟩)] = [⟨0, 0, -5, 10⟩] := by
  decide

/-- C2 (amended): `region_to_non_overlapping_rects` is a total function,
and on every input region whose rectangles all have non-negative width:
every output rectangle has strictly positive width and height, the output
rectangles are pairwise non-overlapping (no integer point lies in two of
them), and rectangles with non-positive height or non-positive width
(zero-sized ones in particular) contribute nothing to the covered area. -/
theorem region_decomposition_disjoint_positive (region : Region)
    (hw : ∀ p ∈ region, 0 ≤ p.2.w) :
    (∀ r ∈ region_to_non_overlapping_rects region, 0 < r.w ∧ 0 < r.h) ∧
    (region_to_non_overlapping_rects region).Pairwise
      (fun r1 r2 => ∀ qx qy, ¬(r1.containsPt qx qy ∧ r2.containsPt qx qy)) ∧
    (∀ px py,
      outputCovers (region_to_non_overlapping_rects
        (region.filter fun p => 0 < p.2.w && 0 < p.2.h)) px py ↔
      outputCovers (region_to_non_overlapping_rects region) px py) :=
  decomposition_disjoint_positive region hw

theorem region_decomposition_disjoint_positive_witness :
    (∀ p ∈ ([(.add, ⟨0, 0, 10, 10⟩), (.add, ⟨5, 5, 10, 10⟩)] : Region), 0 ≤ p.2.w) ∧
    ((∀ r ∈ region_to_non_overlapping_rects
        [(.add, ⟨0, 0, 10, 10⟩), (.add, ⟨5, 5, 10, 10⟩)], 0 < r.w ∧ 0 < r.h) ∧
    (region_to_non_overlapping_rects
        [(.add, ⟨0, 0, 10, 10⟩), (.add, ⟨5, 5, 10, 10⟩)]).Pairwise
      (fun r1 r2 => ∀ qx qy, ¬(r1.containsPt qx qy ∧ r2.containsPt qx qy)) ∧
    (∀ px py,
      outputCovers (region_to_non_overlapping_rects
        (([(.add, ⟨0, 0, 10, 10⟩), (.add, ⟨5, 5, 10, 10⟩)] : Region).filter
          fun p => 0 < p.2.w && 0 < p.2.h)) px py ↔
      outputCovers (region_to_non_overlapping_rects
        [(.add, ⟨0, 0, 10, 10⟩), (.add, ⟨5, 5, 10, 10⟩)]) px py)) :=
  ⟨by decide,
    region_decomposition_disjoint_positive
      [(.add, ⟨0, 0, 10, 10⟩), (.add, ⟨5, 5, 10, 10⟩)] (by decide)⟩

/-! ### Blur pyramid (claims C3, C4, C7) -/

/-- A texture size, mirroring `Size<i32, Buffer>`. -/
structure Size2 where
  w : Int
  h : Int
  deriving DecidableEq, Repr

/-- One halving step of the pyramid: `w = max(1, w / 2)`,
`h = max(1, h / 2)` as in the creation loop of `Blur::prepare_textures`. -/
def halfSize (s : Size2) : Size2 :=
  ⟨max 1 (s.w / 2), max 1 (s.h / 2)⟩

/-- The expected pyramid: entry `i` is the `i`-fold halving of the source
size; `pyramidSizes s n` has `n + 1` entries. -/
def pyramidSizes (s : Size2) (n : Nat) : List Size2 :=
  (List.range (n + 1)).map fun j => halfSize^[j] s

/-- The texture list is a halving chain (each entry the halving of the
previous one). `Blur::new` starts with `[]` and every successful
`prepare_textures` leaves such a chain, so this characterises the
reachable states. -/
def isHalvingChain : List Size2 → Bool
  | [] => true
  | [_] => true
  | s :: s2 :: rest => s2 = halfSize s && isHalvingChain (s2 :: rest)

/-- Observable outcome of `Blur::prepare_textures`: the final texture
list, the sizes of newly created textures in creation order, whether the
existing list was discarded (`self.textures.clear()`), and how many
trailing textures were dropped by the final `drain(passes + 1..)`. -/
structure PrepareResult where
  textures : List Size2
  created : List Size2
  cleared : Bool
  dropped : Nat
  deriving DecidableEq, Repr

/-- The creation loop `for i in 0..=passes` of `Blur::prepare_textures`:
`n` counts the remaining iterations, `i` the current index, `s` the size
computed for step `i` (halved after each step). A texture is created only
when `textures.len() <= i`; a failing creation aborts with the partially
extended list discarded from the result (`?` propagation). -/
def createLoop (ok : Size2 → Bool) :
    Nat → Nat → Size2 → List Size2 → List Size2 →
    Except Unit (List Size2 × List Size2)
  | 0, _, _, texs, created => .ok (texs, created)
  | n + 1, i, s, texs, created =>
    if texs.length > i then
      createLoop ok n (i + 1) (halfSize s) texs created
    else if ok s then
      createLoop ok n (i + 1) (halfSize s) (texs ++ [s]) (created ++ [s])
    else
      .error ()

/-- The reuse-or-discard decision at the top of `prepare_textures`: the
list is kept only when it is empty or entry 0 has the source size and is
a unique reference; otherwise it is cleared (second component `true`). -/
def prepareStart (texs : List Size2) (unique0 : Bool) (sourceSize : Size2) :
    List Size2 × Bool :=
  match texs with
  | [] => (texs, false)
  | t0 :: _ =>
    if t0 ≠ sourceSize then ([], true)
    else if unique0 = false then ([], true)
    else (texs, false)

/-- `Blur::prepare_textures` from `src/render_helpers/blur.rs`.
`texs` is the current `self.textures` (sizes), `unique0` whether entry 0
is a unique reference, `ok` the success oracle of the texture-creation
callback. The pass count is clamped to `[1, 31]`; the list is discarded
when entry 0 exists and its size differs from the source size or it is
not uniquely referenced; then missing entries are created and trailing
entries beyond `passes + 1` dropped. -/
def prepare_textures (texs : List Size2) (unique0 : Bool) (ok : Size2 → Bool)
    (sourceSize : Size2) (passes : Nat) : Except Unit PrepareResult :=
  let p := min (max passes 1) 31
  match createLoop ok (p + 1) 0 sourceSize
      (prepareStart texs unique0 sourceSize).1 [] with
  | .error () => .error ()
  | .ok (texs2, created) =>
    .ok ⟨texs2.take (p + 1), created,
      (prepareStart texs unique0 sourceSize).2, texs2.length - (p + 1)⟩

theorem prepareStart_nil (unique0 : Bool) (source : Size2) :
    prepareStart [] unique0 source = ([], false) := rfl

theorem prepareStart_keep {t0 : Size2} (rest : List Size2) {unique0 : Bool}
    {source : Size2} (h1 : t0 = source) (h2 : unique0 = true) :
    prepareStart (t0 :: rest) unique0 source = (t0 :: rest, false) := by
  rw [prepareStart, if_neg (by simp [h1]), if_neg (by simp [h2])]

theorem prepareStart_clear {t0 : Size2} (rest : List Size2) {unique0 : Bool}
    {source : Size2} (h : t0 ≠ source ∨ unique0 = false) :
    prepareStart (t0 :: rest) unique0 source = ([], true) := by
  rcases h with h | h
  · rw [prepareStart, if_pos (by simpa using h)]
  · by_cases h1 : t0 = source
    · rw [prepareStart, if_neg (by simp [h1]), if_pos (by simpa using h)]
    · rw [prepareStart, if_pos (by simpa using h1)]

/-- Observable outcome of `Blur::render`: the returned result and the
number of GPU blur draws issued (`passes` downsample plus `passes`
upsample draw calls). -/
structure RenderOutcome where
  result : Except String Size2
  gpuPasses : Nat
  deriving Repr

/-- `Blur::render` from `src/render_helpers/blur.rs`: the four `ensure!`
preconditions (renderer context, texture count, entry 0 size, entry 0
uniqueness) in source order, then the GPU pass sequence (modelled by the
success flag `gpuOk`); on success the returned texture is entry 0. Entry
0 (`self.textures[0]`) is modelled as `texs.head?.getD ⟨0, 0⟩`; the
default is unreachable because the length check has already ensured the
list is non-empty. -/
def Blur.render (rendererCtx frameCtx : Nat) (texs : List Size2)
    (unique0 : Bool) (gpuOk : Bool) (sourceSize : Size2) (passes : Nat) :
    RenderOutcome :=
  if frameCtx ≠ rendererCtx then ⟨.error "wrong renderer", 0⟩
  else if texs.length ≠ min (max passes 1) 31 + 1 then
    ⟨.error "wrong textures len", 0⟩
  else if texs.head?.getD ⟨0, 0⟩ ≠ sourceSize then
    ⟨.error "wrong output texture size", 0⟩
  else if unique0 = false then
    ⟨.error "output texture has a non-unique reference", 0⟩
  else if gpuOk then ⟨.ok (texs.head?.getD ⟨0, 0⟩), 2 * min (max passes 1) 31⟩
  else ⟨.error "gl context error", 0⟩

/-! ### Blur pyramid lemmas -/

theorem pyramidSizes_length (s : Size2) (n : Nat) :
    (pyramidSizes s n).length = n + 1 := by
  rw [pyramidSizes, List.length_map, List.length_range]

theorem pyramidSizes_getElem (s : Size2) (n i : Nat) (h : i < n + 1) :
    (pyramidSizes s n)[i]? = some (halfSize^[i] s) := by
  rw [pyramidSizes, List.getElem?_map, List.getElem?_range h]
  rfl

theorem pyramidSizes_succ (s : Size2) (n : Nat) :
    pyramidSizes s (n + 1) = s :: pyramidSizes (halfSize s) n := by
  rw [pyramidSizes, pyramidSizes, List.range_succ_eq_map, List.map_cons,
    List.map_map]
  apply congrArg₂ List.cons
  · exact Function.iterate_zero_apply halfSize s
  · apply List.map_congr_left
    intro j _
    exact Function.iterate_succ_apply halfSize j s

theorem pyramidSizes_head (s : Size2) (n : Nat) :
    ∃ rest, pyramidSizes s n = s :: rest := by
  cases n with
  | zero => exact ⟨[], rfl⟩
  | succ n => exact ⟨pyramidSizes (halfSize s) n, pyramidSizes_succ s n⟩

theorem isHalvingChain_pyramid (s : Size2) (n : Nat) :
    isHalvingChain (pyramidSizes s n) = true := by
  induction n generalizing s with
  | zero => rfl
  | succ n ih =>
    rw [pyramidSizes_succ]
    obtain ⟨rest, hrest⟩ := pyramidSizes_head (halfSize s) n
    rw [hrest]
    simp only [isHalvingChain, Bool.and_eq_true, decide_eq_true_eq]
    refine ⟨?_, ?_⟩
    · trivial
    · rw [← hrest]
      exact ih (halfSize s)

theorem chain_eq_pyramid : ∀ (rest : List Size2) (t0 : Size2),
    isHalvingChain (t0 :: rest) = true →
    t0 :: rest = pyramidSizes t0 rest.length := by
  intro rest
  induction rest with
  | nil =>
    intro t0 _
    rfl
  | cons s2 rest ih =>
    intro t0 h
    simp only [isHalvingChain, Bool.and_eq_true, decide_eq_true_eq] at h
    obtain ⟨h1, h2⟩ := h
    rw [List.length_cons, pyramidSizes_succ, ← h1, ← ih s2 h2]

theorem createLoop_ok (ok : Size2 → Bool) (source : Size2) :
    ∀ (n i : Nat) (s : Size2) (texs created texs2 created2 : List Size2),
    s = halfSize^[i] source →
    i ≤ texs.length →
    texs = (List.range texs.length).map (fun j => halfSize^[j] source) →
    createLoop ok n i s texs created = .ok (texs2, created2) →
    texs2 = (List.range (max texs.length (i + n))).map
      (fun j => halfSize^[j] source) ∧
    created2 = created ++
      (((List.range (i + n)).map fun j => halfSize^[j] source).drop texs.length) := by
  intro n
  induction n with
  | zero =>
    intro i s texs created texs2 created2 hs hi htex h
    simp only [createLoop, Except.ok.injEq, Prod.mk.injEq] at h
    obtain ⟨rfl, rfl⟩ := h
    constructor
    · rw [Nat.max_eq_left (by omega)]
      exact htex
    · rw [List.drop_eq_nil_of_le (by rw [List.length_map, List.length_range]; omega),
        List.append_nil]
  | succ n ih =>
    intro i s texs created texs2 created2 hs hi htex h
    simp only [createLoop] at h
    by_cases hlen : texs.length > i
    · rw [if_pos hlen] at h
      obtain ⟨h1, h2⟩ := ih (i + 1) (halfSize s) texs created texs2 created2
        (by rw [hs, ← Function.iterate_succ_apply' halfSize]) (by omega) htex h
      have hm : i + 1 + n = i + (n + 1) := by omega
      rw [hm] at h1 h2
      exact ⟨h1, h2⟩
    · rw [if_neg hlen] at h
      have hieq : texs.length = i := by omega
      by_cases hok : ok s = true
      · rw [if_pos hok] at h
        have hlen1 : (texs ++ [s]).length = texs.length + 1 := by
          rw [List.length_append, List.length_singleton]
        have htex' : texs ++ [s] =
            (List.range (texs ++ [s]).length).map (fun j => halfSize^[j] source) := by
          rw [hlen1, List.range_succ texs.length, List.map_append]
          apply congrArg₂ (· ++ ·)
          · exact htex
          · rw [List.map_singleton]
            apply congrArg (fun z => [z])
            rw [hs, hieq]
        obtain ⟨h1, h2⟩ := ih (i + 1) (halfSize s) (texs ++ [s]) (created ++ [s])
          texs2 created2 (by rw [hs, ← Function.iterate_succ_apply' halfSize])
          (by rw [hlen1]; omega) htex' h
        have hm : i + 1 + n = i + (n + 1) := by omega
        refine ⟨?_, ?_⟩
        · rw [h1, hm, hlen1, hieq, Nat.max_eq_right (by omega),
            Nat.max_eq_right (by omega)]
        · rw [h2, hm, hlen1, hieq, List.append_assoc, List.singleton_append]
          apply congrArg (created ++ ·)
          have hL : i < ((List.range (i + (n + 1))).map
              fun j => halfSize^[j] source).length := by
            rw [List.length_map, List.length_range]
            omega
          rw [List.drop_eq_getElem_cons hL]
          apply congrArg₂ List.cons
          · rw [List.getElem_map, List.getElem_range]
            exact hs
          · rfl
      · rw [if_neg hok] at h
        exact absurd h (by simp)

/-- Unfolding equation for `prepare_textures`. -/
theorem prepare_textures_eq (texs : List Size2) (unique0 : Bool)
    (ok : Size2 → Bool) (source : Size2) (passes : Nat) :
    prepare_textures texs unique0 ok source passes =
      match createLoop ok (min (max passes 1) 31 + 1) 0 source
          (prepareStart texs unique0 source).1 [] with
      | .error () => .error ()
      | .ok (texs2, created) =>
        .ok ⟨texs2.take (min (max passes 1) 31 + 1), created,
          (prepareStart texs unique0 source).2,
          texs2.length - (min (max passes 1) 31 + 1)⟩ := rfl

/-- Full characterisation of a successful `Blur::prepare_textures` call:
when the list is discarded, it is rebuilt as the full pyramid from
scratch; when entry 0 matches the source and is unique and the stored
list is a halving chain, the list is reused in place — only missing
trailing entries are created and trailing entries beyond `clamp + 1`
dropped. -/
theorem prepare_spec (texs : List Size2) (unique0 : Bool) (ok : Size2 → Bool)
    (source : Size2) (passes : Nat) (r : PrepareResult)
    (h : prepare_textures texs unique0 ok source passes = .ok r) :
    (r.cleared = true ↔
      ∃ t0 rest, texs = t0 :: rest ∧ (t0 ≠ source ∨ unique0 = false)) ∧
    ((texs = [] ∨ r.cleared = true) →
      r.textures = pyramidSizes source (min (max passes 1) 31) ∧
      r.created = pyramidSizes source (min (max passes 1) 31) ∧
      r.dropped = 0) ∧
    (texs.head? = some source → unique0 = true → isHalvingChain texs = true →
      r.cleared = false ∧
      r.textures = pyramidSizes source (min (max passes 1) 31) ∧
      r.created = (pyramidSizes source (min (max passes 1) 31)).drop texs.length ∧
      r.dropped = texs.length - (min (max passes 1) 31 + 1)) := by
  have hfresh : ∀ texs2 created2,
      createLoop ok (min (max passes 1) 31 + 1) 0 source [] [] =
        .ok (texs2, created2) →
      texs2 = pyramidSizes source (min (max passes 1) 31) ∧
      created2 = pyramidSizes source (min (max passes 1) 31) := by
    intro texs2 created2 hcl
    obtain ⟨h1, h2⟩ := createLoop_ok ok source (min (max passes 1) 31 + 1) 0 source
      [] [] texs2 created2 rfl (by simp) rfl hcl
    rw [List.length_nil, Nat.zero_add] at h1 h2
    rw [Nat.max_eq_right (by omega)] at h1
    rw [List.drop_zero, List.nil_append] at h2
    exact ⟨h1, h2⟩
  have hrebuild : ∀ (hstart : (prepareStart texs unique0 source) = ([], true)) r,
      prepare_textures texs unique0 ok source passes = .ok r →
      r.cleared = true ∧
      r.textures = pyramidSizes source (min (max passes 1) 31) ∧
      r.created = pyramidSizes source (min (max passes 1) 31) ∧
      r.dropped = 0 := by
    intro hstart r h
    rw [prepare_textures_eq] at h
    simp only [hstart] at h
    match hcl : createLoop ok (min (max passes 1) 31 + 1) 0 source [] [] with
    | .error () => rw [hcl] at h; exact absurd h (by simp)
    | .ok (texs2, created2) =>
      rw [hcl] at h
      simp only [Except.ok.injEq] at h
      obtain ⟨hT, hC⟩ := hfresh texs2 created2 hcl
      subst h
      have hlen : texs2.length = min (max passes 1) 31 + 1 := by
        rw [hT, pyramidSizes_length]
      refine ⟨rfl, ?_, hC, ?_⟩
      · rw [List.take_of_length_le (by omega), hT]
      · simp only [hlen]
        omega
  match htexs : texs with
  | [] =>
    rw [prepare_textures_eq] at h
    simp only [prepareStart_nil] at h
    match hcl : createLoop ok (min (max passes 1) 31 + 1) 0 source [] [] with
    | .error () => rw [hcl] at h; exact absurd h (by simp)
    | .ok (texs2, created2) =>
      rw [hcl] at h
      simp only [Except.ok.injEq] at h
      obtain ⟨hT, hC⟩ := hfresh texs2 created2 hcl
      subst h
      have hlen : texs2.length = min (max passes 1) 31 + 1 := by
        rw [hT, pyramidSizes_length]
      refine ⟨by simp, fun _ => ?_, by simp⟩
      refine ⟨?_, hC, ?_⟩
      · rw [List.take_of_length_le (by omega), hT]
      · simp only [hlen]
        omega
  | t0 :: rest =>
    by_cases hne : t0 = source
    · by_cases hu : unique0 = true
      · rw [prepare_textures_eq] at h
        simp only [prepareStart_keep rest hne hu] at h
        match hcl : createLoop ok (min (max passes 1) 31 + 1) 0 source
            (t0 :: rest) [] with
        | .error () => rw [hcl] at h; exact absurd h (by simp)
        | .ok (texs2, created2) =>
          rw [hcl] at h
          simp only [Except.ok.injEq] at h
          subst h
          refine ⟨by simp [hne, hu], by simp, fun _ _ hchain => ?_⟩
          have hpyr : t0 :: rest = pyramidSizes t0 rest.length :=
            chain_eq_pyramid rest t0 hchain
          have hrange : t0 :: rest =
              (List.range ((t0 :: rest).length)).map
                (fun j => halfSize^[j] source) := by
            rw [List.length_cons, hpyr, hne]
            rfl
          obtain ⟨h1, h2⟩ := createLoop_ok ok source (min (max passes 1) 31 + 1) 0
            source (t0 :: rest) [] texs2 created2 rfl (by simp) hrange hcl
          rw [Nat.zero_add] at h1 h2
          rw [List.nil_append] at h2
          have hlen2 : texs2.length =
              max (t0 :: rest).length (min (max passes 1) 31 + 1) := by
            rw [h1, List.length_map, List.length_range]
          refine ⟨rfl, ?_, ?_, ?_⟩
          · rw [h1, pyramidSizes, ← List.map_take, List.take_range,
              Nat.min_eq_left (by omega)]
          · rw [h2, pyramidSizes]
          · simp only [hlen2]
            omega
      · have hres := hrebuild (prepareStart_clear rest (Or.inr (by simpa using hu))) r h
        refine ⟨?_, fun _ => ⟨hres.2.1, hres.2.2⟩, fun _ hu2 _ => absurd hu2 hu⟩
        simp only [hres.1, true_iff]
        exact ⟨t0, rest, rfl, Or.inr (by simpa using hu)⟩
    · have hres := hrebuild (prepareStart_clear rest (Or.inl hne)) r h
      refine ⟨?_, fun _ => ⟨hres.2.1, hres.2.2⟩,
        fun hhead => absurd (by simpa using hhead) hne⟩
      simp only [hres.1, true_iff]
      exact ⟨t0, rest, rfl, Or.inl hne⟩

/-! ### Claim theorems C3, C4, C7 -/

/-- C3: for every source texture size, every passes value (out-of-range
values clamped to [1, 31]) and every reachable prior texture list — a
halving chain, which holds for the initial `[]` and is re-established by
every successful call — a successful `Blur::prepare_textures` leaves the
texture list with exactly clamp(passes,1,31)+1 entries, where entry 0 has
the source's size and every entry i+1 has size componentwise
max(1, entry_i / 2). -/
theorem blur_prepare_pyramid_shape (texs : List Size2) (unique0 : Bool)
    (ok : Size2 → Bool) (source : Size2) (passes : Nat) (r : PrepareResult)
    (hchain : isHalvingChain texs = true)
    (h : prepare_textures texs unique0 ok source passes = .ok r) :
    r.textures.length = min (max passes 1) 31 + 1 ∧
    r.textures.head? = some source ∧
    ∀ i : Nat, i + 1 < r.textures.length →
      r.textures[i + 1]? = Option.map halfSize r.textures[i]? := by
  have hspec := prepare_spec texs unique0 ok source passes r h
  have htex : r.textures = pyramidSizes source (min (max passes 1) 31) := by
    rcases texs with _ | ⟨t0, rest⟩
    · exact (hspec.2.1 (Or.inl rfl)).1
    · by_cases hc : r.cleared = true
      · exact (hspec.2.1 (Or.inr hc)).1
      · have h1 : t0 = source ∧ unique0 = true := by
          by_contra hcon
          apply hc
          apply hspec.1.mpr
          refine ⟨t0, rest, rfl, ?_⟩
          rcases Decidable.em (t0 = source) with h2 | h2
          · rcases Decidable.em (unique0 = true) with h3 | h3
            · exact absurd ⟨h2, h3⟩ hcon
            · exact Or.inr (by simpa using h3)
          · exact Or.inl h2
        exact (hspec.2.2 (by rw [List.head?_cons, h1.1]) h1.2 hchain).2.1
  rw [htex]
  refine ⟨pyramidSizes_length source _, ?_, ?_⟩
  · obtain ⟨rest, hr⟩ := pyramidSizes_head source (min (max passes 1) 31)
    rw [hr, List.head?_cons]
  · intro i hlt
    rw [pyramidSizes_length] at hlt
    rw [pyramidSizes_getElem source _ i (by omega),
      pyramidSizes_getElem source _ (i + 1) (by omega)]
    simp [Function.iterate_succ_apply']

theorem blur_prepare_pyramid_shape_witness :
    isHalvingChain ([] : List Size2) = true ∧
    prepare_textures [] true (fun _ => true) ⟨8, 8⟩ 2 =
      .ok ⟨[⟨8, 8⟩, ⟨4, 4⟩, ⟨2, 2⟩], [⟨8, 8⟩, ⟨4, 4⟩, ⟨2, 2⟩], false, 0⟩ ∧
    ((⟨[⟨8, 8⟩, ⟨4, 4⟩, ⟨2, 2⟩], [⟨8, 8⟩, ⟨4, 4⟩, ⟨2, 2⟩], false, 0⟩ :
        PrepareResult).textures.length = min (max 2 1) 31 + 1 ∧
      (⟨[⟨8, 8⟩, ⟨4, 4⟩, ⟨2, 2⟩], [⟨8, 8⟩, ⟨4, 4⟩, ⟨2, 2⟩], false, 0⟩ :
        PrepareResult).textures.head? = some ⟨8, 8⟩ ∧
      ∀ i : Nat, i + 1 < (⟨[⟨8, 8⟩, ⟨4, 4⟩, ⟨2, 2⟩], [⟨8, 8⟩, ⟨4, 4⟩, ⟨2, 2⟩],
          false, 0⟩ : PrepareResult).textures.length →
        (⟨[⟨8, 8⟩, ⟨4, 4⟩, ⟨2, 2⟩], [⟨8, 8⟩, ⟨4, 4⟩, ⟨2, 2⟩], false, 0⟩ :
          PrepareResult).textures[i + 1]? =
        Option.map halfSize (⟨[⟨8, 8⟩, ⟨4, 4⟩, ⟨2, 2⟩], [⟨8, 8⟩, ⟨4, 4⟩, ⟨2, 2⟩],
          false, 0⟩ : PrepareResult).textures[i]?) :=
  ⟨rfl, rfl,
    blur_prepare_pyramid_shape [] true (fun _ => true) ⟨8, 8⟩ 2 _ rfl rfl⟩

/-- C4: `Blur::render` aborts with a descriptive error and performs no
blur passes whenever any precondition is violated — wrong renderer
context, texture-list length differing from clamp(passes,1,31)+1, entry
0's size differing from the source's, or entry 0 not exclusively
referenced; when all preconditions hold and the GPU passes succeed it
returns a handle to entry 0's texture. -/
theorem blur_render_contract (rendererCtx frameCtx : Nat) (texs : List Size2)
    (unique0 : Bool) (gpuOk : Bool) (source : Size2) (passes : Nat) :
    ((frameCtx ≠ rendererCtx ∨ texs.length ≠ min (max passes 1) 31 + 1 ∨
        texs.head? ≠ some source ∨ unique0 = false) →
      (∃ msg,
        (Blur.render rendererCtx frameCtx texs unique0 gpuOk source passes).result
          = .error msg) ∧
      (Blur.render rendererCtx frameCtx texs unique0 gpuOk source passes).gpuPasses
        = 0) ∧
    (frameCtx = rendererCtx → texs.length = min (max passes 1) 31 + 1 →
      texs.head? = some source → unique0 = true → gpuOk = true →
      (Blur.render rendererCtx frameCtx texs unique0 gpuOk source passes).result
        = .ok source) := by
  constructor
  · intro hviol
    by_cases hctx : frameCtx ≠ rendererCtx
    · rw [Blur.render, if_pos hctx]
      exact ⟨⟨_, rfl⟩, rfl⟩
    · by_cases hlen : texs.length ≠ min (max passes 1) 31 + 1
      · rw [Blur.render, if_neg hctx, if_pos hlen]
        exact ⟨⟨_, rfl⟩, rfl⟩
      · push_neg at hlen
        rcases texs with _ | ⟨t0, rest⟩
        · exfalso
          rw [List.length_nil] at hlen
          omega
        · by_cases hsz : t0 ≠ source
          · rw [Blur.render, if_neg hctx, if_neg (by omega),
              if_pos (by simpa using hsz)]
            exact ⟨⟨_, rfl⟩, rfl⟩
          · have huf : unique0 = false := by
              push_neg at hctx hsz
              rcases hviol with h1 | h1 | h1 | h1
              · exact absurd hctx h1
              · exact absurd hlen h1
              · exact absurd (by rw [List.head?_cons, hsz]) h1
              · exact h1
            rw [Blur.render, if_neg hctx, if_neg (by omega),
              if_neg (by simpa using hsz), if_pos huf]
            exact ⟨⟨_, rfl⟩, rfl⟩
  · intro hctx hlen hhead hu hgpu
    rcases texs with _ | ⟨t0, rest⟩
    · exact absurd hhead (by simp)
    · rw [List.head?_cons, Option.some_inj] at hhead
      rw [Blur.render, if_neg (by omega), if_neg (by omega),
        if_neg (by simp [hhead]), if_neg (by simp [hu]), if_pos hgpu]
      simp [hhead]

theorem blur_render_contract_witness :
    ((1 ≠ 0 ∨ ([⟨4, 4⟩, ⟨2, 2⟩] : List Size2).length ≠ min (max 1 1) 31 + 1 ∨
        ([⟨4, 4⟩, ⟨2, 2⟩] : List Size2).head? ≠ some ⟨4, 4⟩ ∨ true = false) →
      (∃ msg, (Blur.render 0 1 [⟨4, 4⟩, ⟨2, 2⟩] true true ⟨4, 4⟩ 1).result
          = .error msg) ∧
      (Blur.render 0 1 [⟨4, 4⟩, ⟨2, 2⟩] true true ⟨4, 4⟩ 1).gpuPasses = 0) ∧
    ((1 : Nat) = 0 → ([⟨4, 4⟩, ⟨2, 2⟩] : List Size2).length = min (max 1 1) 31 + 1 →
      ([⟨4, 4⟩, ⟨2, 2⟩] : List Size2).head? = some ⟨4, 4⟩ → true = true →
      true = true →
      (Blur.render 0 1 [⟨4, 4⟩, ⟨2, 2⟩] true true ⟨4, 4⟩ 1).result = .ok ⟨4, 4⟩) :=
  blur_render_contract 0 1 [⟨4, 4⟩, ⟨2, 2⟩] true true ⟨4, 4⟩ 1

/-- C7: for every successful `Blur::prepare_textures` call, (a) the whole
texture list is discarded and rebuilt exactly when entry 0 exists and its
size changed or it is not exclusively owned; (b) when the stored list is
a halving chain starting at the source size and entry 0 is exclusively
owned, the list is not discarded, existing entries are kept, only the
missing trailing entries are created, and entries beyond
clamp(passes,1,31)+1 are dropped; (c) in particular a repeat call with
the same source size and pass count creates and destroys no textures — a
no-op on the texture list. -/
theorem blur_prepare_reuse (texs : List Size2) (unique0 : Bool)
    (ok : Size2 → Bool) (source : Size2) (passes : Nat) (r : PrepareResult)
    (h : prepare_textures texs unique0 ok source passes = .ok r) :
    (r.cleared = true ↔
      ∃ t0 rest, texs = t0 :: rest ∧ (t0 ≠ source ∨ unique0 = false)) ∧
    (isHalvingChain texs = true → texs.head? = some source → unique0 = true →
      r.cleared = false ∧
      r.textures = pyramidSizes source (min (max passes 1) 31) ∧
      r.created = (pyramidSizes source (min (max passes 1) 31)).drop texs.length ∧
      r.dropped = texs.length - (min (max passes 1) 31 + 1)) ∧
    (texs = pyramidSizes source (min (max passes 1) 31) → unique0 = true →
      r.cleared = false ∧ r.textures = texs ∧ r.created = [] ∧ r.dropped = 0) := by
  have hspec := prepare_spec texs unique0 ok source passes r h
  refine ⟨hspec.1, fun hchain hhead hu => hspec.2.2 hhead hu hchain, ?_⟩
  intro hp hu
  have hchain : isHalvingChain texs = true := by
    rw [hp]
    exact isHalvingChain_pyramid source (min (max passes 1) 31)
  have hhead : texs.head? = some source := by
    rw [hp]
    obtain ⟨rest, hr⟩ := pyramidSizes_head source (min (max passes 1) 31)
    rw [hr, List.head?_cons]
  obtain ⟨hc, hT, hC, hD⟩ := hspec.2.2 hhead hu hchain
  refine ⟨hc, ?_, ?_, ?_⟩
  · rw [hT, hp]
  · rw [hC, hp, pyramidSizes_length,
      List.drop_eq_nil_of_le (by rw [pyramidSizes_length])]
  · rw [hD, hp, pyramidSizes_length]
    omega

theorem blur_prepare_reuse_witness :
    prepare_textures [⟨9, 5⟩, ⟨4, 2⟩, ⟨2, 1⟩] true (fun _ => false) ⟨9, 5⟩ 2 =
      .ok ⟨[⟨9, 5⟩, ⟨4, 2⟩, ⟨2, 1⟩], [], false, 0⟩ ∧
    (((⟨[⟨9, 5⟩, ⟨4, 2⟩, ⟨2, 1⟩], [], false, 0⟩ : PrepareResult).cleared = true ↔
      ∃ t0 rest, ([⟨9, 5⟩, ⟨4, 2⟩, ⟨2, 1⟩] : List Size2) = t0 :: rest ∧
        (t0 ≠ ⟨9, 5⟩ ∨ true = false)) ∧
    (isHalvingChain [⟨9, 5⟩, ⟨4, 2⟩, ⟨2, 1⟩] = true →
      ([⟨9, 5⟩, ⟨4, 2⟩, ⟨2, 1⟩] : List Size2).head? = some ⟨9, 5⟩ → true = true →
      (⟨[⟨9, 5⟩, ⟨4, 2⟩, ⟨2, 1⟩], [], false, 0⟩ : PrepareResult).cleared = false ∧
      (⟨[⟨9, 5⟩, ⟨4, 2⟩, ⟨2, 1⟩], [], false, 0⟩ : PrepareResult).textures =
        pyramidSizes ⟨9, 5⟩ (min (max 2 1) 31) ∧
      (⟨[⟨9, 5⟩, ⟨4, 2⟩, ⟨2, 1⟩], [], false, 0⟩ : PrepareResult).created =
        (pyramidSizes ⟨9, 5⟩ (min (max 2 1) 31)).drop
          ([⟨9, 5⟩, ⟨4, 2⟩, ⟨2, 1⟩] : List Size2).length ∧
      (⟨[⟨9, 5⟩, ⟨4, 2⟩, ⟨2, 1⟩], [], false, 0⟩ : PrepareResult).dropped =
        ([⟨9, 5⟩, ⟨4, 2⟩, ⟨2, 1⟩] : List Size2).length - (min (max 2 1) 31 + 1)) ∧
    (([⟨9, 5⟩, ⟨4, 2⟩, ⟨2, 1⟩] : List Size2) =
        pyramidSizes ⟨9, 5⟩ (min (max 2 1) 31) → true = true →
      (⟨[⟨9, 5⟩, ⟨4, 2⟩, ⟨2, 1⟩], [], false, 0⟩ : PrepareResult).cleared = false ∧
      (⟨[⟨9, 5⟩, ⟨4, 2⟩, ⟨2, 1⟩], [], false, 0⟩ : PrepareResult).textures =
        [⟨9, 5⟩, ⟨4, 2⟩, ⟨2, 1⟩] ∧
      (⟨[⟨9, 5⟩, ⟨4, 2⟩, ⟨2, 1⟩], [], false, 0⟩ : PrepareResult).created = [] ∧
      (⟨[⟨9, 5⟩, ⟨4, 2⟩, ⟨2, 1⟩], [], false, 0⟩ : PrepareResult).dropped = 0)) :=
  ⟨rfl, blur_prepare_reuse [⟨9, 5⟩, ⟨4, 2⟩, ⟨2, 1⟩] true (fun _ => false)
    ⟨9, 5⟩ 2 _ rfl⟩

/-! ### Effect subregion (claims C5, C9) -/

/-- `smithay::utils::Rectangle::overlaps`: strict overlap test. -/
def Recti.overlaps (a b : Recti) : Bool :=
  decide (a.x < b.x + b.w) && decide (b.x < a.x + a.w) &&
  decide (a.y < b.y + b.h) && decide (b.y < a.y + a.h)

/-- `smithay::utils::Rectangle::intersection`: `None` when the rectangles
do not strictly overlap, otherwise the rectangle between the maximal
top-left and minimal bottom-right corners. -/
def Recti.intersection (a b : Recti) : Option Recti :=
  if a.overlaps b then
    some ⟨max a.x b.x, max a.y b.y,
      min (a.x + a.w) (b.x + b.w) - max a.x b.x,
      min (a.y + a.h) (b.y + b.h) - max a.y b.y⟩
  else
    none

/-- A rectangle with rational location and size, standing in for
`Rectangle<f64, _>` (exact arithmetic in place of f64; all operations
used here are deterministic functions either way). -/
structure Rectq where
  x : ℚ
  y : ℚ
  w : ℚ
  h : ℚ
  deriving DecidableEq, Repr

/-- `f64::round`: round half away from zero, as used by
`to_physical_precise_round`. -/
def roundHalfAway (q : ℚ) : Int :=
  if q < 0 then -⌊-q + 1/2⌋ else ⌊q + 1/2⌋

/-- `EffectSubregion` from `src/render_helpers/background_effect.rs`:
non-overlapping integer rectangles in surface-local coordinates, a scale
(`Scale<f64>`, componentwise) and a translation offset applied after
scaling. -/
structure EffectSubregion where
  rects : List Recti
  scaleX : ℚ
  scaleY : ℚ
  offsetX : ℚ
  offsetY : ℚ

/-- `EffectSubregion::iter` for one rectangle: the top-left and
bottom-right extremities (`a`, `b`), converted to floating point,
upscaled componentwise and translated by the offset. Returned as
`((ax, ay), (bx, by))`. -/
def EffectSubregion.iterPt (sub : EffectSubregion) (r : Recti) :
    (ℚ × ℚ) × (ℚ × ℚ) :=
  (((r.x : ℚ) * sub.scaleX + sub.offsetX,
    (r.y : ℚ) * sub.scaleY + sub.offsetY),
   (((r.x : ℚ) + (r.w : ℚ)) * sub.scaleX + sub.offsetX,
    ((r.y : ℚ) + (r.h : ℚ)) * sub.scaleY + sub.offsetY))

/-- The per-rectangle body of `EffectSubregion::filter_damage`: convert
the transformed extremities to crop-relative coordinates, intersect with
the crop rectangle (`None` when empty), and round each extremity
independently to physical pixels with the `dst.size / crop.size` scale;
the result is `Rectangle::from_extremities` of the rounded corners. -/
def transformedRect (sub : EffectSubregion) (crop : Rectq)
    (dstW dstH : Int) (r : Recti) : Option Recti :=
  let scaleX := (dstW : ℚ) / crop.w
  let scaleY := (dstH : ℚ) / crop.h
  let p := sub.iterPt r
  let iax := max (p.1.1 - crop.x) 0
  let iay := max (p.1.2 - crop.y) 0
  let ibx := min (p.2.1 - crop.x) crop.w
  let iby := min (p.2.2 - crop.y) crop.h
  if ibx ≤ iax ∨ iby ≤ iay then none
  else
    some ⟨roundHalfAway (iax * scaleX), roundHalfAway (iay * scaleY),
      roundHalfAway (ibx * scaleX) - roundHalfAway (iax * scaleX),
      roundHalfAway (iby * scaleY) - roundHalfAway (iay * scaleY)⟩

/-- `EffectSubregion::filter_damage`: for every subregion rectangle, the
transformed and rounded rectangle (if non-empty) is intersected with
every damage rectangle and all non-empty intersections are emitted. -/
def EffectSubregion.filter_damage (sub : EffectSubregion) (crop : Rectq)
    (dstW dstH : Int) (damage : List Recti) : List Recti :=
  sub.rects.flatMap fun r =>
    match transformedRect sub crop dstW dstH r with
    | none => []
    | some rr => damage.filterMap fun d => rr.intersection d

/-- C5: two input rectangles that abut (in x or in y) are transformed to
extremities that undergo exactly the same operations, so whenever both
produce an output rectangle, the rounded shared edges coincide exactly —
no gap and no overlap. -/
theorem subregion_abutting_preserved (sub : EffectSubregion) (crop : Rectq)
    (dstW dstH : Int) (r1 r2 R1 R2 : Recti)
    (h1 : transformedRect sub crop dstW dstH r1 = some R1)
    (h2 : transformedRect sub crop dstW dstH r2 = some R2) :
    (r1.x + r1.w = r2.x → R1.x + R1.w = R2.x) ∧
    (r1.y + r1.h = r2.y → R1.y + R1.h = R2.y) := by
  simp only [transformedRect] at h1 h2
  split at h1
  · exact absurd h1 (by simp)
  · split at h2
    · exact absurd h2 (by simp)
    · rename_i hne1 hne2
      push_neg at hne1 hne2
      rw [Option.some_inj] at h1 h2
      subst h1 h2
      constructor
      · intro habut
        have hv : ((r1.x : ℚ) + (r1.w : ℚ)) * sub.scaleX + sub.offsetX =
            (r2.x : ℚ) * sub.scaleX + sub.offsetX := by
          have : ((r1.x : ℚ) + (r1.w : ℚ)) = (r2.x : ℚ) := by
            push_cast [← habut]
            ring
          rw [this]
        simp only [EffectSubregion.iterPt] at hne1 hne2 ⊢
        set v := ((r1.x : ℚ) + (r1.w : ℚ)) * sub.scaleX + sub.offsetX - crop.x
          with hvdef
        have hv2 : (r2.x : ℚ) * sub.scaleX + sub.offsetX - crop.x = v := by
          rw [hvdef, hv]
        show roundHalfAway (max ((r1.x : ℚ) * sub.scaleX + sub.offsetX - crop.x) 0
            * ((dstW : ℚ) / crop.w)) +
          (roundHalfAway (min v crop.w * ((dstW : ℚ) / crop.w)) -
            roundHalfAway (max ((r1.x : ℚ) * sub.scaleX + sub.offsetX - crop.x) 0
              * ((dstW : ℚ) / crop.w))) =
          roundHalfAway (max ((r2.x : ℚ) * sub.scaleX + sub.offsetX - crop.x) 0
            * ((dstW : ℚ) / crop.w))
        rw [hv2]
        have hedge : min v crop.w = max v 0 := by
          have ha1 : max ((r1.x : ℚ) * sub.scaleX + sub.offsetX - crop.x) 0 <
              min v crop.w := hne1.1
          have ha2 : max v 0 <
              min (((r2.x : ℚ) + (r2.w : ℚ)) * sub.scaleX + sub.offsetX - crop.x)
                crop.w := by
            rw [hv2] at hne2
            exact hne2.1
          have hv0 : 0 < v :=
            lt_of_lt_of_le (lt_of_le_of_lt (le_max_right _ 0) ha1)
              (min_le_left v crop.w)
          have hvw : v < crop.w :=
            lt_of_le_of_lt (le_max_left v 0)
              (lt_of_lt_of_le ha2 (min_le_right _ _))
          rw [min_eq_left (le_of_lt hvw), max_eq_left (le_of_lt hv0)]
        rw [hedge]
        ring
      · intro habut
        have hv : ((r1.y : ℚ) + (r1.h : ℚ)) * sub.scaleY + sub.offsetY =
            (r2.y : ℚ) * sub.scaleY + sub.offsetY := by
          have : ((r1.y : ℚ) + (r1.h : ℚ)) = (r2.y : ℚ) := by
            push_cast [← habut]
            ring
          rw [this]
        simp only [EffectSubregion.iterPt] at hne1 hne2 ⊢
        set v := ((r1.y : ℚ) + (r1.h : ℚ)) * sub.scaleY + sub.offsetY - crop.y
          with hvdef
        have hv2 : (r2.y : ℚ) * sub.scaleY + sub.offsetY - crop.y = v := by
          rw [hvdef, hv]
        show roundHalfAway (max ((r1.y : ℚ) * sub.scaleY + sub.offsetY - crop.y) 0
            * ((dstH : ℚ) / crop.h)) +
          (roundHalfAway (min v crop.h * ((dstH : ℚ) / crop.h)) -
            roundHalfAway (max ((r1.y : ℚ) * sub.scaleY + sub.offsetY - crop.y) 0
              * ((dstH : ℚ) / crop.h))) =
          roundHalfAway (max ((r2.y : ℚ) * sub.scaleY + sub.offsetY - crop.y) 0
            * ((dstH : ℚ) / crop.h))
        rw [hv2]
        have hedge : min v crop.h = max v 0 := by
          have ha1 : max ((r1.y : ℚ) * sub.scaleY + sub.offsetY - crop.y) 0 <
              min v crop.h := hne1.2
          have ha2 : max v 0 <
              min (((r2.y : ℚ) + (r2.h : ℚ)) * sub.scaleY + sub.offsetY - crop.y)
                crop.h := by
            rw [hv2] at hne2
            exact hne2.2
          have hv0 : 0 < v :=
            lt_of_lt_of_le (lt_of_le_of_lt (le_max_right _ 0) ha1)
              (min_le_left v crop.h)
          have hvw : v < crop.h :=
            lt_of_le_of_lt (le_max_left v 0)
              (lt_of_lt_of_le ha2 (min_le_right _ _))
          rw [min_eq_left (le_of_lt hvw), max_eq_left (le_of_lt hv0)]
        rw [hedge]
        ring

theorem subregion_abutting_preserved_witness :
    transformedRect ⟨[⟨0, 0, 2, 2⟩, ⟨2, 0, 2, 2⟩], 3/2, 3/2, 0, 0⟩ ⟨0, 0, 6, 6⟩
      6 6 ⟨0, 0, 2, 2⟩ = some ⟨0, 0, 3, 3⟩ ∧
    transformedRect ⟨[⟨0, 0, 2, 2⟩, ⟨2, 0, 2, 2⟩], 3/2, 3/2, 0, 0⟩ ⟨0, 0, 6, 6⟩
      6 6 ⟨2, 0, 2, 2⟩ = some ⟨3, 0, 3, 3⟩ ∧
    (((0 : Int) + 2 = 2 → (0 : Int) + 3 = 3) ∧
     ((0 : Int) + 2 = 0 → (0 : Int) + 3 = 0)) := by
  have e1 : transformedRect ⟨[⟨0, 0, 2, 2⟩, ⟨2, 0, 2, 2⟩], 3/2, 3/2, 0, 0⟩
      ⟨0, 0, 6, 6⟩ 6 6 ⟨0, 0, 2, 2⟩ = some ⟨0, 0, 3, 3⟩ := by
    norm_num [transformedRect, EffectSubregion.iterPt, roundHalfAway]
  have e2 : transformedRect ⟨[⟨0, 0, 2, 2⟩, ⟨2, 0, 2, 2⟩], 3/2, 3/2, 0, 0⟩
      ⟨0, 0, 6, 6⟩ 6 6 ⟨2, 0, 2, 2⟩ = some ⟨3, 0, 3, 3⟩ := by
    norm_num [transformedRect, EffectSubregion.iterPt, roundHalfAway]
  exact ⟨e1, e2,
    subregion_abutting_preserved ⟨[⟨0, 0, 2, 2⟩, ⟨2, 0, 2, 2⟩], 3/2, 3/2, 0, 0⟩
      ⟨0, 0, 6, 6⟩ 6 6 ⟨0, 0, 2, 2⟩ ⟨2, 0, 2, 2⟩ ⟨0, 0, 3, 3⟩ ⟨3, 0, 3, 3⟩ e1 e2⟩

/-! ### Framebuffer effect capture and draw (claims C6, C8, C9, C10) -/

/-- Provenance of the stored "intermediate" texture: the raw captured
framebuffer or the blurred result, tagged with the capture call (frame)
that produced it. -/
inductive Intermediate where
  | fb (frameId : Nat)
  | blurred (frameId : Nat)
  deriving DecidableEq, Repr

/-- Control-flow model of `FramebufferEffectElement::capture_framebuffer`
(`src/render_helpers/framebuffer_effect.rs`). `prior` is the previously
stored intermediate; the flags model, in source order: `innerExists`
(`self.inner` is `Some`), `dstIntersects` (`dst` intersects the output
rectangle), `createFbOk` (framebuffer texture creation), `blurEngine`
(`inner.blur` is `Some`), `blurRequested` (`self.blur_options` is
`Some`), `prepareOk` (`Blur::prepare_textures`), `blitOk`
(`glBlitFramebuffer`), `blurRenderOk` (`Blur::render`). Returns the call
result and the new stored intermediate. The source clears
`inner.intermediate` immediately after the inner check and repopulates it
only after a successful blit (and blur, when requested and working). -/
def capture_framebuffer (prior : Option Intermediate) (frameId : Nat)
    (innerExists dstIntersects createFbOk blurEngine blurRequested
      prepareOk blitOk blurRenderOk : Bool) :
    Except Unit Unit × Option Intermediate :=
  if innerExists = false then (.ok (), prior)
  else if dstIntersects = false then (.ok (), none)
  else if createFbOk = false then (.error (), none)
  else if blitOk = false then (.error (), none)
  else if blurRequested = false then (.ok (), some (.fb frameId))
  else if blurEngine && blurRequested && prepareOk then
    if blurRenderOk then (.ok (), some (.blurred frameId))
    else (.ok (), none)
  else (.ok (), none)

/-- A `render_texture_from_to` invocation issued by
`FramebufferEffectElement::draw`. -/
structure FbDrawCall where
  texture : Intermediate
  dst : Recti
  damage : List Recti
  deriving DecidableEq, Repr

/-- The damage list remaining in `FramebufferEffectElement::draw` after
subregion filtering and the adjustment for the output-bounds clamp
(the `filtered` vector at the `is_empty` check). -/
def fbeFilteredDamage (outputW outputH : Int) (subregion : Option EffectSubregion)
    (geometry src : Rectq) (dst : Recti) (damage : List Recti) : List Recti :=
  match dst.intersection ⟨0, 0, outputW, outputH⟩ with
  | none => []
  | some clamped =>
    let filtered :=
      match subregion with
      | some sub =>
        sub.filter_damage ⟨src.x + geometry.x, src.y + geometry.y, src.w, src.h⟩
          dst.w dst.h damage
      | none => damage
    if clamped ≠ dst then
      filtered.filterMap fun d =>
        match d.intersection ⟨clamped.x - dst.x, clamped.y - dst.y,
            clamped.w, clamped.h⟩ with
        | none => none
        | some c => some ⟨c.x - (clamped.x - dst.x), c.y - (clamped.y - dst.y),
            c.w, c.h⟩
    else filtered

/-- `FramebufferEffectElement::draw`: early return when the inner state
is missing, the intermediate texture is absent, or the clamped
destination is empty; then damage filtering; an empty filtered list skips
the draw, otherwise one `render_texture_from_to` call is issued with the
intermediate texture, the clamped destination and the filtered damage. -/
def FramebufferEffectElement.draw (innerExists : Bool)
    (intermediate : Option Intermediate) (outputW outputH : Int)
    (subregion : Option EffectSubregion) (geometry src : Rectq)
    (dst : Recti) (damage : List Recti) : Except Unit (Option FbDrawCall) :=
  if innerExists = false then .ok none
  else
    match intermediate, dst.intersection ⟨0, 0, outputW, outputH⟩ with
    | none, _ => .ok none
    | some _, none => .ok none
    | some tex, some clamped =>
      if (fbeFilteredDamage outputW outputH subregion geometry src dst
          damage).isEmpty then .ok none
      else .ok (some ⟨tex, clamped,
        fbeFilteredDamage outputW outputH subregion geometry src dst damage⟩)

/-- A `render_texture_from_to` invocation issued by `XrayElement::draw`. -/
structure XrayDrawCall where
  dst : Recti
  damage : List Recti
  deriving DecidableEq, Repr

/-- The crop rectangle `XrayElement::draw` passes to `filter_damage`:
`src` made `self.src`-relative, upscaled by `geometry.size / self.src.size`
and translated by `geometry.loc`. -/
def xrayCrop (geometry selfSrc src : Rectq) : Rectq :=
  ⟨(src.x - selfSrc.x) * (geometry.w / selfSrc.w) + geometry.x,
   (src.y - selfSrc.y) * (geometry.h / selfSrc.h) + geometry.y,
   src.w * (geometry.w / selfSrc.w), src.h * (geometry.h / selfSrc.h)⟩

/-- `XrayElement::draw`: a failing `EffectBuffer::render` only warns and
returns success without drawing; with a subregion, the filtered damage is
used and an empty result skips the draw; without a subregion the damage
list is passed through to `render_texture_from_to` unconditionally. -/
def XrayElement.draw (bufferRenderOk : Bool)
    (subregion : Option EffectSubregion) (geometry selfSrc src : Rectq)
    (dst : Recti) (damage : List Recti) : Except Unit (Option XrayDrawCall) :=
  if bufferRenderOk = false then .ok none
  else
    match subregion with
    | some sub =>
      if (sub.filter_damage (xrayCrop geometry selfSrc src) dst.w dst.h
          damage).isEmpty then .ok none
      else .ok (some ⟨dst,
        sub.filter_damage (xrayCrop geometry selfSrc src) dst.w dst.h damage⟩)
    | none => .ok (some ⟨dst, damage⟩)

/-- C6 (counterexample to the claim as stated): blur requested, blur
engine present, blit succeeding, but `Blur::prepare_textures` failing —
the capture call returns success, yet the stored intermediate is `none`
(cleared), not the raw captured framebuffer texture: there is no fallback
to the unblurred capture. -/
theorem capture_blur_failure_counterexample :
    (capture_framebuffer none 0 true true true true true false true true).1
      = .ok () ∧
    (capture_framebuffer none 0 true true true true true false true true).2
      = none :=
  ⟨rfl, rfl⟩

/-- C6 (amended): if blur is requested and preparing or running the blur
pyramid fails inside `capture_framebuffer`, the call still returns
success with only a non-fatal diagnostic, but the intermediate texture is
left cleared (`none`) rather than falling back to the raw capture, so the
subsequent draw skips rendering for this frame. -/
theorem capture_blur_failure_degrades (prior : Option Intermediate)
    (frameId : Nat) (prepareOk blurRenderOk : Bool)
    (hfail : prepareOk = false ∨ blurRenderOk = false) :
    capture_framebuffer prior frameId true true true true true prepareOk true
      blurRenderOk = (.ok (), none) := by
  rcases hfail with h | h
  · subst h
    rfl
  · subst h
    cases prepareOk <;> rfl

theorem capture_blur_failure_degrades_witness :
    ((false : Bool) = false ∨ (true : Bool) = false) ∧
    capture_framebuffer none 7 true true true true true false true true =
      (.ok (), none) :=
  ⟨Or.inl rfl, capture_blur_failure_degrades none 7 false true (Or.inl rfl)⟩

/-- The frame transformation (`smithay::utils::Transform`) as it affects
sizes: the four 90°-rotated variants swap width and height. -/
inductive FrameTransform where
  | normal | rot90 | rot180 | rot270
  | flipped | flipped90 | flipped180 | flipped270
  deriving DecidableEq, Repr

/-- `Transform::transform_size`. -/
def FrameTransform.transformSize (t : FrameTransform) (w h : Int) : Int × Int :=
  match t with
  | .rot90 | .rot270 | .flipped90 | .flipped270 => (h, w)
  | _ => (w, h)

/-- The capture texture size computation of
`FramebufferEffectElement::capture_framebuffer` (lines 179–217): clamp
`dst` to the output rectangle (`none` when disjoint — the capture
returns early), let `clamp_scale` be the componentwise ratio
clamped/dst, and size the texture as the logical source size upscaled by
`clamp_scale`, rounded at the element scale, then transformed. -/
def captureTextureSize (outputW outputH : Int) (t : FrameTransform)
    (srcW srcH : ℚ) (scale : ℚ) (dst : Recti) : Option (Int × Int) :=
  match dst.intersection ⟨0, 0, outputW, outputH⟩ with
  | none => none
  | some clamped =>
    some (t.transformSize
      (roundHalfAway (srcW * ((clamped.w : ℚ) / (dst.w : ℚ)) * scale))
      (roundHalfAway (srcH * ((clamped.h : ℚ) / (dst.h : ℚ)) * scale)))

/-- C8 (counterexample to the claim as stated): with the destination
partially outside the output bounds, shrinking the destination rectangle
(same location, smaller width) changes the computed capture texture size,
because the size is multiplied by the clamp ratio clamped/dst. -/
theorem capture_size_counterexample :
    captureTextureSize 100 100 .normal 40 40 1 ⟨50, 0, 100, 100⟩
      = some (20, 40) ∧
    captureTextureSize 100 100 .normal 40 40 1 ⟨50, 0, 80, 100⟩
      = some (25, 40) := by
  constructor <;>
    norm_num [captureTextureSize, Recti.intersection, Recti.overlaps,
      roundHalfAway, FrameTransform.transformSize]

/-- C8 (amended): as long as the destination rectangle stays entirely
within the output bounds (clamp ratio 1), the capture texture size is
computed from the element's logical source size and scale only — it does
not depend on the destination rectangle at all, so it does not change as
the destination shrinks during a zoom. -/
theorem capture_size_from_element (oW oH : Int) (t : FrameTransform)
    (srcW srcH scale : ℚ) (dst : Recti)
    (hin : dst.intersection ⟨0, 0, oW, oH⟩ = some dst)
    (hw : 0 < dst.w) (hh : 0 < dst.h) :
    captureTextureSize oW oH t srcW srcH scale dst =
      some (t.transformSize (roundHalfAway (srcW * scale))
        (roundHalfAway (srcH * scale))) := by
  simp only [captureTextureSize, hin]
  have hw' : ((dst.w : ℚ)) ≠ 0 := by
    have : dst.w ≠ 0 := by omega
    exact_mod_cast this
  have hh' : ((dst.h : ℚ)) ≠ 0 := by
    have : dst.h ≠ 0 := by omega
    exact_mod_cast this
  rw [div_self hw', div_self hh', mul_one, mul_one]

theorem capture_size_from_element_witness :
    (⟨10, 10, 20, 20⟩ : Recti).intersection ⟨0, 0, 100, 100⟩ =
      some ⟨10, 10, 20, 20⟩ ∧
    (0 : Int) < 20 ∧ (0 : Int) < 20 ∧
    captureTextureSize 100 100 .normal 40 40 1 ⟨10, 10, 20, 20⟩ =
      some (FrameTransform.normal.transformSize (roundHalfAway (40 * 1))
        (roundHalfAway (40 * 1))) :=
  ⟨by decide, by decide, by decide,
    capture_size_from_element 100 100 .normal 40 40 1 ⟨10, 10, 20, 20⟩
      (by decide) (by decide) (by decide)⟩

/-- C9 (counterexample to the claim as stated): `XrayElement::draw` with
no subregion and an empty damage list does not return early — it passes
the empty damage list straight through to `render_texture_from_to`,
issuing a texture-rendering call. -/
theorem xray_draw_empty_damage_counterexample :
    XrayElement.draw true none ⟨0, 0, 1, 1⟩ ⟨0, 0, 1, 1⟩ ⟨0, 0, 1, 1⟩
      ⟨0, 0, 10, 10⟩ [] = .ok (some ⟨⟨0, 0, 10, 10⟩, []⟩) := rfl

/-- C9 (amended): whenever the damage list remaining after filtering is
empty, `FramebufferEffectElement::draw` returns success without issuing a
texture-rendering call (for any inputs), and `XrayElement::draw` does the
same whenever a subregion is present; without a subregion `XrayElement`
passes the damage list through unconditionally. -/
theorem draw_skips_on_empty_filtered_damage (innerExists : Bool)
    (intermediate : Option Intermediate) (oW oH : Int)
    (subregion : Option EffectSubregion) (geometry src : Rectq) (dst : Recti)
    (damage : List Recti) (bufferRenderOk : Bool) (sub2 : EffectSubregion)
    (geometry2 selfSrc2 src2 : Rectq) (dst2 : Recti) (damage2 : List Recti) :
    (fbeFilteredDamage oW oH subregion geometry src dst damage = [] →
      FramebufferEffectElement.draw innerExists intermediate oW oH subregion
        geometry src dst damage = .ok none) ∧
    (sub2.filter_damage (xrayCrop geometry2 selfSrc2 src2) dst2.w dst2.h damage2
        = [] →
      XrayElement.draw bufferRenderOk (some sub2) geometry2 selfSrc2 src2 dst2
        damage2 = .ok none) := by
  constructor
  · intro h
    rw [FramebufferEffectElement.draw.eq_def]
    by_cases hi : innerExists = false
    · rw [if_pos hi]
    · rw [if_neg hi]
      rcases intermediate with _ | tex
      · rfl
      · cases hcl : dst.intersection ⟨0, 0, oW, oH⟩ with
        | none => rfl
        | some clamped =>
          have hempty : (fbeFilteredDamage oW oH subregion geometry src dst
              damage).isEmpty = true := by
            rw [h]
            rfl
          simp [hempty]
  · intro h
    rw [XrayElement.draw.eq_def]
    by_cases hb : bufferRenderOk = false
    · rw [if_pos hb]
    · rw [if_neg hb]
      have hempty : (sub2.filter_damage (xrayCrop geometry2 selfSrc2 src2)
          dst2.w dst2.h damage2).isEmpty = true := by
        rw [h]
        rfl
      simp [hempty]

theorem draw_skips_on_empty_filtered_damage_witness :
    fbeFilteredDamage 10 10 none ⟨0, 0, 1, 1⟩ ⟨0, 0, 1, 1⟩ ⟨0, 0, 5, 5⟩ [] = [] ∧
    EffectSubregion.filter_damage ⟨[], 1, 1, 0, 0⟩
      (xrayCrop ⟨0, 0, 1, 1⟩ ⟨0, 0, 1, 1⟩ ⟨0, 0, 1, 1⟩) 5 5 [⟨0, 0, 5, 5⟩] = [] ∧
    FramebufferEffectElement.draw true (some (.fb 0)) 10 10 none ⟨0, 0, 1, 1⟩
      ⟨0, 0, 1, 1⟩ ⟨0, 0, 5, 5⟩ [] = .ok none ∧
    XrayElement.draw true (some ⟨[], 1, 1, 0, 0⟩) ⟨0, 0, 1, 1⟩ ⟨0, 0, 1, 1⟩
      ⟨0, 0, 1, 1⟩ ⟨0, 0, 5, 5⟩ [⟨0, 0, 5, 5⟩] = .ok none := by
  refine ⟨rfl, rfl, ?_, ?_⟩
  · exact (draw_skips_on_empty_filtered_damage true (some (.fb 0)) 10 10 none
      ⟨0, 0, 1, 1⟩ ⟨0, 0, 1, 1⟩ ⟨0, 0, 5, 5⟩ [] true ⟨[], 1, 1, 0, 0⟩
      ⟨0, 0, 1, 1⟩ ⟨0, 0, 1, 1⟩ ⟨0, 0, 1, 1⟩ ⟨0, 0, 5, 5⟩ [⟨0, 0, 5, 5⟩]).1 rfl
  · exact (draw_skips_on_empty_filtered_damage true (some (.fb 0)) 10 10 none
      ⟨0, 0, 1, 1⟩ ⟨0, 0, 1, 1⟩ ⟨0, 0, 5, 5⟩ [] true ⟨[], 1, 1, 0, 0⟩
      ⟨0, 0, 1, 1⟩ ⟨0, 0, 1, 1⟩ ⟨0, 0, 1, 1⟩ ⟨0, 0, 5, 5⟩ [⟨0, 0, 5, 5⟩]).2 rfl

/-- C10: with the inner state present, every `capture_framebuffer` call
first clears the stored intermediate, and the stored intermediate after
the call is either `none` or a texture produced by this very call (tagged
with the current frame), never the prior capture's; a capture whose
destination misses the output bounds succeeds with the intermediate left
cleared; a failed blit leaves it cleared too (with the call failing); and
a draw that finds no intermediate returns success without issuing any
draw call. -/
theorem capture_clears_stale_intermediate (prior : Option Intermediate)
    (frameId : Nat) (dI cF bE bR pO blO brO : Bool) :
    (∀ result newInterm,
      capture_framebuffer prior frameId true dI cF bE bR pO blO brO =
        (result, newInterm) →
      newInterm = none ∨ newInterm = some (.fb frameId) ∨
        newInterm = some (.blurred frameId)) ∧
    (dI = false →
      capture_framebuffer prior frameId true dI cF bE bR pO blO brO =
        (.ok (), none)) ∧
    (blO = false → dI = true → cF = true →
      capture_framebuffer prior frameId true dI cF bE bR pO blO brO =
        (.error (), none)) ∧
    (∀ (oW oH : Int) (subregion : Option EffectSubregion) (geometry src : Rectq)
      (dst : Recti) (damage : List Recti) (innerE : Bool),
      FramebufferEffectElement.draw innerE none oW oH subregion geometry src dst
        damage = .ok none) := by
  refine ⟨?_, ?_, ?_, ?_⟩
  · intro result newInterm h
    cases dI <;> cases cF <;> cases bE <;> cases bR <;> cases pO <;> cases blO <;>
      cases brO <;> simp_all [capture_framebuffer]
  · intro h
    subst h
    rfl
  · intro h1 h2 h3
    subst h1 h2 h3
    rfl
  · intro oW oH subregion geometry src dst damage innerE
    cases innerE <;> rfl

theorem capture_clears_stale_intermediate_witness :
    capture_framebuffer (some (.blurred 3)) 4 true false true true true true true
      true = (.ok (), none) ∧
    FramebufferEffectElement.draw true none 10 10 none ⟨0, 0, 1, 1⟩ ⟨0, 0, 1, 1⟩
      ⟨0, 0, 5, 5⟩ [⟨0, 0, 5, 5⟩] = .ok none :=
  ⟨(capture_clears_stale_intermediate (some (.blurred 3)) 4 false true true true
      true true true).2.1 rfl,
   (capture_clears_stale_intermediate (some (.blurred 3)) 4 false true true true
      true true true).2.2.2 10 10 none ⟨0, 0, 1, 1⟩ ⟨0, 0, 1, 1⟩ ⟨0, 0, 5, 5⟩
      [⟨0, 0, 5, 5⟩] true⟩

end Niri
